import Mathlib

/-!
Verification of the stormstack-dev-bot agentic execution control plane: a
shallow embedding of the command sandbox validator (internal/executor/sandbox.go),
the agent tool-use control loop (internal/claude/conversation.go), the tool
dispatcher (internal/slack/handlers.go), the in-memory conversation store
(internal/storage), and the output-limiting writer (internal/executor/runner.go),
together with theorems settling the specification claims.

Strings are modelled as lists of characters; the Go standard-library string
operations used by the code (TrimSpace, ToLower, Contains, Fields, Split,
ReplaceAll) are defined on lists below, restricted to their ASCII behaviour,
which is what the commands and patterns exercise.
-/

namespace StormStack

/-! ### Go string primitives, modelled on lists of characters -/

/-- The ASCII part of Go unicode.IsSpace, used by strings.TrimSpace and
strings.Fields. -/
def isSpace (c : Char) : Bool :=
  decide (c = ' ' ∨ c = '\t' ∨ c = '\n' ∨ c = '\x0b' ∨ c = '\x0c' ∨ c = '\r')

/-- strings.ToLower, character by character. -/
def lowerL (l : List Char) : List Char := l.map Char.toLower

/-- Drop trailing characters satisfying the predicate. -/
def dropTrailing (p : Char → Bool) (l : List Char) : List Char :=
  (l.reverse.dropWhile p).reverse

/-- strings.TrimSpace. -/
def trimL (l : List Char) : List Char :=
  (dropTrailing isSpace l).dropWhile isSpace

/-- Accumulator-style splitter behind fieldsL; the accumulator is the current
word, reversed. -/
def fieldsAux : List Char → List Char → List (List Char)
  | [], acc => if acc = [] then [] else [acc.reverse]
  | c :: rest, acc =>
    if isSpace c then
      if acc = [] then fieldsAux rest []
      else acc.reverse :: fieldsAux rest []
    else fieldsAux rest (c :: acc)

/-- strings.Fields: the whitespace-separated words of the string. -/
def fieldsL (l : List Char) : List (List Char) := fieldsAux l []

/-- strings.ReplaceAll l "&&" "\n": greedy left-to-right replacement of
non-overlapping occurrences. -/
def replaceAmpAmp : List Char → List Char
  | [] => []
  | [x] => [x]
  | x :: y :: rest =>
    if x = '&' ∧ y = '&' then '\n' :: replaceAmpAmp rest
    else x :: replaceAmpAmp (y :: rest)

/-- strings.ReplaceAll l ";" "\n" (single-character replacement). -/
def semiToNewline (l : List Char) : List Char :=
  l.map (fun c => if c = ';' then '\n' else c)

/-- The sub-commands validateChainedCommands splits a command into: replace
"&&" and ";" by newline, then split on newline. -/
def chainSegments (l : List Char) : List (List Char) :=
  List.splitOn '\n' (semiToNewline (replaceAmpAmp l))

/-! ### sandbox.go: data -/

/-- AllowedCommands from sandbox.go. -/
def AllowedCommands : List (List Char) :=
  ["git".toList, "gh".toList, "ls".toList, "cat".toList, "head".toList,
   "tail".toList, "find".toList, "grep".toList, "wc".toList, "diff".toList,
   "echo".toList, "pwd".toList, "date".toList, "which".toList, "file".toList,
   "stat".toList, "make".toList, "mvn".toList, "gradle".toList, "npm".toList,
   "yarn".toList, "pnpm".toList, "cargo".toList, "go".toList]

/-- DangerousPatterns from sandbox.go.  The seventh entry is the fork bomb
written with \x7b and \x7d for its braces. -/
def DangerousPatterns : List (List Char) :=
  ["rm -rf /".toList, "rm -rf ~".toList, "rm -rf $HOME".toList,
   "> /dev/".toList, "mkfs".toList, "dd if=".toList,
   ":()\x7b:|:&\x7d;:".toList,
   "curl.*|.*sh".toList, "wget.*|.*sh".toList,
   "sudo".toList, "su -".toList, "chmod 777".toList, "chown root".toList,
   "/etc/passwd".toList, "/etc/shadow".toList, "~/.ssh".toList, ".ssh/".toList,
   "printenv".toList, "export.*=".toList]

/-- BlockedGitCommands from sandbox.go. -/
def BlockedGitCommands : List (List Char) :=
  ["push --force".toList, "push -f".toList, "reset --hard".toList,
   "clean -f".toList, "clean -fd".toList, "checkout .".toList,
   "restore .".toList]

/-- The distinct error values ValidateCommand can return, one constructor per
fmt.Errorf site in sandbox.go, each carrying the data interpolated into the
message. -/
inductive VErr where
  | emptyCommand : VErr
  | dangerousPattern : List Char → VErr
  | notAllowed : List Char → VErr
  | notAllowedInPipe : List Char → VErr
  | gitBlocked : List Char → VErr
  | pushToProtected : VErr
  | depthExceeded : VErr
deriving DecidableEq

/-! ### sandbox.go: the validator -/

/-- isAllowedCommand from sandbox.go: strip any path qualification (keep the
last slash-separated segment), then check membership in AllowedCommands. -/
def isAllowedCommand (cmd : List Char) : Bool :=
  let c := if '/' ∈ cmd then (List.splitOn '/' cmd).getLastD [] else cmd
  decide (c ∈ AllowedCommands)

/-- validateGitCommand from sandbox.go. -/
def validateGitCommand (command : List Char) : Except VErr Unit :=
  let lower := lowerL command
  match List.find? (fun b => decide (lowerL b <:+: lower)) BlockedGitCommands with
  | some b => .error (.gitBlocked b)
  | none =>
    if ("push").toList <:+: lower then
      if ("main").toList <:+: lower ∨ ("master").toList <:+: lower then
        if ¬ (("-u").toList <:+: lower ∨ ("--set-upstream").toList <:+: lower) then
          .error .pushToProtected
        else .ok ()
      else .ok ()
    else .ok ()

/-- Loop body of validatePipeChain over the segments split on the pipe
character: each segment is trimmed, blank segments are skipped, and only the
leading field is checked against the allowlist. -/
def pipeLoop : List (List Char) → Except VErr Unit
  | [] => .ok ()
  | pipe :: rest =>
    let p := trimL pipe
    if p = [] then pipeLoop rest
    else
      match fieldsL p with
      | [] => pipeLoop rest
      | w :: _ =>
        if isAllowedCommand w then pipeLoop rest else .error (.notAllowedInPipe w)

/-- validatePipeChain from sandbox.go. -/
def validatePipeChain (command : List Char) : Except VErr Unit :=
  pipeLoop (List.splitOn '|' command)

/-- Loop body of validateChainedCommands: each segment is trimmed, blank
segments are skipped, and the validator v is re-run on the rest; the first
error is returned. -/
def chainLoop (v : List Char → Except VErr Unit) : List (List Char) → Except VErr Unit
  | [] => .ok ()
  | seg :: rest =>
    let c := trimL seg
    if c = [] then chainLoop v rest
    else
      match v c with
      | .error e => .error e
      | .ok _ => chainLoop v rest

/-- validateChainedCommands from sandbox.go, parameterised by the recursive
call back into ValidateCommand. -/
def validateChainedCommands (v : List Char → Except VErr Unit) (command : List Char) :
    Except VErr Unit :=
  chainLoop v (chainSegments command)

/-- The body of ValidateCommand from sandbox.go, with the recursive treatment
of the chained-command branch abstracted as chainHandler (applied to the
trimmed command): trim, reject empty, scan the case-folded command for
dangerous patterns, extract the base command, then dispatch on pipes, chains,
the allowlist and the git-specific checks, in the order of the source. -/
def validateStep (chainHandler : List Char → Except VErr Unit) (command : List Char) :
    Except VErr Unit :=
  let t := trimL command
  if t = [] then .error .emptyCommand
  else
    match List.find? (fun p => decide (lowerL p <:+: lowerL t)) DangerousPatterns with
    | some p => .error (.dangerousPattern p)
    | none =>
      match fieldsL t with
      | [] => .error .emptyCommand
      | baseCmd :: _ =>
        if ['|'] <:+: t then validatePipeChain t
        else if ['&', '&'] <:+: t ∨ [';'] <:+: t then chainHandler t
        else if ¬ isAllowedCommand baseCmd then .error (.notAllowed baseCmd)
        else if baseCmd = ("git").toList then validateGitCommand t
        else .ok ()

/-- The tail of validateStep after the pipe and chain branches are passed:
the allowlist check on the base command followed by the git-specific checks.
Used to state path equations about validateStep. -/
def validateRest (t : List Char) : Except VErr Unit :=
  match fieldsL t with
  | [] => .error .emptyCommand
  | baseCmd :: _ =>
    if ¬ isAllowedCommand baseCmd then .error (.notAllowed baseCmd)
    else if baseCmd = ("git").toList then validateGitCommand t
    else .ok ()

/-- ValidateCommand with recursion-depth fuel.  Chain segments never contain
"&&" or ";" again (chainSegments removes every occurrence), so from depth 2 on
the depthExceeded branch is unreachable and the function is fuel-independent;
this is proved below (validateCore_fuel_stable). -/
def validateCore : Nat → List Char → Except VErr Unit
  | 0, command => validateStep (fun _ => .error .depthExceeded) command
  | f + 1, command =>
    validateStep (fun t => validateChainedCommands (fun c => validateCore f c) t) command

/-- ValidateCommand from sandbox.go. -/
def ValidateCommand (s : String) : Except VErr Unit :=
  validateCore 2 s.toList

/-! ### conversation.go: messages and the agent control loop -/

/-- One content block of a model message (the anthropic content union as the
loop consumes it): text, a tool-use request, or a tool result. -/
inductive ContentBlock where
  | text : String → ContentBlock
  | toolUse : String → String → String → ContentBlock
  | toolResult : String → String → Bool → ContentBlock
deriving DecidableEq

/-- anthropic.MessageParam: a role together with content blocks. -/
structure MessageParam where
  role : String
  content : List ContentBlock
deriving DecidableEq

/-- anthropic.Message as the loop consumes it: content plus stop reason. -/
structure ModelMessage where
  content : List ContentBlock
  stopReason : String
deriving DecidableEq

/-- anthropic.ToolUseBlock. -/
structure ToolUseBlock where
  id : String
  name : String
  input : String
deriving DecidableEq

/-- ToolResult from conversation.go. -/
structure ToolResult where
  toolUseID : String
  result : String
  isError : Bool
deriving DecidableEq

/-- HasToolUse from conversation.go: the stop reason signals tool use. -/
def HasToolUse (msg : ModelMessage) : Bool :=
  decide (msg.stopReason = "tool_use")

/-- ExtractTextContent from conversation.go: concatenate the text blocks. -/
def ExtractTextContent (msg : ModelMessage) : String :=
  msg.content.foldl (fun acc b =>
    match b with
    | .text s => acc ++ s
    | _ => acc) ""

/-- ExtractToolUses from conversation.go. -/
def ExtractToolUses (msg : ModelMessage) : List ToolUseBlock :=
  msg.content.filterMap (fun b =>
    match b with
    | .toolUse i n inp => some ⟨i, n, inp⟩
    | _ => none)

/-- FormatError from conversation.go. -/
def FormatError (e : String) : String := "Error: " ++ e

/-- BuildUserMessage from conversation.go. -/
def BuildUserMessage (content : String) : MessageParam :=
  ⟨"user", [.text content]⟩

/-- BuildAssistantMessage from conversation.go. -/
def BuildAssistantMessage (content : String) : MessageParam :=
  ⟨"assistant", [.text content]⟩

/-- The assistant-content rebuild inside processWithToolLoop: keep non-empty
text blocks and tool-use blocks, in original order. -/
def buildAssistantContent (blocks : List ContentBlock) : List ContentBlock :=
  blocks.filterMap (fun b =>
    match b with
    | .text s => if s = "" then none else some (.text s)
    | .toolUse i n inp => some (.toolUse i n inp)
    | .toolResult _ _ _ => none)

/-- BuildToolResultsMessage from conversation.go: one batched user-role turn. -/
def BuildToolResultsMessage (results : List ToolResult) : MessageParam :=
  ⟨"user", results.map (fun r => .toolResult r.toolUseID r.result r.isError)⟩

/-- The model backend as the loop sees it: full message history in, response
or transport error out. -/
def ModelClient : Type := List MessageParam → Except String ModelMessage

/-- claude.ToolExecutor, the function type: tool name and raw input to result
text or error. -/
def ToolExecutorFn : Type := String → String → Except String String

/-- The per-iteration tool execution loop of processWithToolLoop: run every
requested tool in order; an executor error becomes an error-flagged ToolResult
carrying the FormatError text. -/
def executeTools (executor : ToolExecutorFn) (toolUses : List ToolUseBlock) :
    List ToolResult :=
  toolUses.map (fun tu =>
    match executor tu.name tu.input with
    | .ok result => ⟨tu.id, result, false⟩
    | .error e => ⟨tu.id, FormatError e, true⟩)

/-- maxIterations from processWithToolLoop. -/
def maxIterations : Nat := 20

/-- The error message returned when the iteration ceiling is exhausted. -/
def maxIterationsMsg : String := "exceeded maximum tool use iterations (20)"

/-- processWithToolLoop with the for-loop bound as fuel, instrumented: the
result together with the number of model calls made and the number of tool
executions performed.  The first component is the Go return value; the two
counters are ghost data that do not influence control flow. -/
def loopAux (client : ModelClient) (executor : ToolExecutorFn) :
    Nat → List MessageParam → Except String String × Nat × Nat
  | 0, _ => (.error maxIterationsMsg, 0, 0)
  | f + 1, messages =>
    match client messages with
    | .error e => (.error ("claude API error: " ++ e), 1, 0)
    | .ok response =>
      if HasToolUse response then
        let toolUses := ExtractToolUses response
        let assistantMsg : MessageParam := ⟨"assistant", buildAssistantContent response.content⟩
        let results := executeTools executor toolUses
        let next := loopAux client executor f
            (messages ++ [assistantMsg, BuildToolResultsMessage results])
        (next.1, next.2.1 + 1, next.2.2 + toolUses.length)
      else
        (.ok (ExtractTextContent response), 1, 0)

/-- processWithToolLoop from conversation.go. -/
def processWithToolLoop (client : ModelClient) (executor : ToolExecutorFn)
    (messages : List MessageParam) : Except String String × Nat × Nat :=
  loopAux client executor maxIterations messages

/-! ### handlers.go: the tool dispatcher -/

/-- The collaborator operations behind slack.ToolExecutor, one field per tool
implementation; each takes the raw JSON input and returns text or an error
(gitStatus and getGuidelines take no input in the source). -/
structure ToolExecutor where
  readFile : String → Except String String
  listFiles : String → Except String String
  searchCode : String → Except String String
  getTree : String → Except String String
  writeFile : String → Except String String
  editFile : String → Except String String
  runCommand : String → Except String String
  runBuild : String → Except String String
  runTests : String → Except String String
  gitStatus : Except String String
  gitDiff : String → Except String String
  gitLog : String → Except String String
  createBranch : String → Except String String
  commit : String → Except String String
  push : String → Except String String
  createPR : String → Except String String
  getGuidelines : Except String String
  findTests : String → Except String String
  analyzeFailures : String → Except String String

/-- The tool names the Execute switch recognises. -/
def knownToolNames : List String :=
  ["read_file", "list_files", "search_code", "get_tree",
   "write_file", "edit_file",
   "run_command", "run_build", "run_tests",
   "git_status", "git_diff", "git_log", "create_branch", "commit", "push",
   "create_pr",
   "get_guidelines", "find_tests", "analyze_failures"]

/-- Execute from handlers.go: the tool-name switch; an unknown name produces
the error "unknown tool: name". -/
def ToolExecutor.Execute (e : ToolExecutor) (name : String) (input : String) :
    Except String String :=
  match name with
  | "read_file" => e.readFile input
  | "list_files" => e.listFiles input
  | "search_code" => e.searchCode input
  | "get_tree" => e.getTree input
  | "write_file" => e.writeFile input
  | "edit_file" => e.editFile input
  | "run_command" => e.runCommand input
  | "run_build" => e.runBuild input
  | "run_tests" => e.runTests input
  | "git_status" => e.gitStatus
  | "git_diff" => e.gitDiff input
  | "git_log" => e.gitLog input
  | "create_branch" => e.createBranch input
  | "commit" => e.commit input
  | "push" => e.push input
  | "create_pr" => e.createPR input
  | "get_guidelines" => e.getGuidelines
  | "find_tests" => e.findTests input
  | "analyze_failures" => e.analyzeFailures input
  | _ => .error ("unknown tool: " ++ name)

/-! ### storage: the in-memory conversation store -/

/-- storage.Message.  The timestamp is modelled as a natural number. -/
structure Message where
  role : String
  content : String
  timestamp : Nat
deriving DecidableEq

/-- storage.Conversation.  Times are modelled as natural numbers. -/
structure Conversation where
  id : String
  channelID : String
  messages : List Message
  createdAt : Nat
  updatedAt : Nat
deriving DecidableEq

/-- The map held by storage.MemoryStore; the mutex serialising access is
irrelevant to the sequential claims. -/
def MemoryStore : Type := String → Option Conversation

/-- NewMemoryStore. -/
def MemoryStore.empty : MemoryStore := fun _ => none

/-- MemoryStore.Get returns a deep copy of the stored conversation
(copyConversation), which on immutable values is the conversation itself. -/
def MemoryStore.Get (s : MemoryStore) (id : String) : Option Conversation := s id

/-- MemoryStore.AddMessage.  The clock reading time.Now is passed in as now
(the source reads the clock twice on the creation path, under the same lock;
both readings are modelled as the one instant). -/
def MemoryStore.AddMessage (s : MemoryStore) (id channelID : String) (msg : Message)
    (now : Nat) : MemoryStore :=
  fun k =>
    if k = id then
      match s id with
      | none =>
        some { id := id, channelID := channelID, messages := [msg],
               createdAt := now, updatedAt := now }
      | some conv =>
        some { conv with messages := conv.messages ++ [msg], updatedAt := now }
    else s k

/-- A sequence of AddMessage calls for one conversation id, applied in order;
each call carries its message and its clock reading. -/
def MemoryStore.addAll (s : MemoryStore) (id channelID : String)
    (msgs : List (Message × Nat)) : MemoryStore :=
  msgs.foldl (fun st m => st.AddMessage id channelID m.1 m.2) s

/-! ### runner.go: the output-limiting writer -/

/-- limitedWriter from runner.go: the destination buffer bytes, the byte
ceiling and the bytes written so far (Go ints, modelled as integers). -/
structure limitedWriter where
  buf : List Nat
  limit : Int
  written : Int
deriving DecidableEq

/-- limitedWriter.Write.  Returns the new writer state, the reported byte
count n, and the reported error (bytes.Buffer writes never fail, so the inner
error is none).  The source reassigns p to its truncated slice before the
final return of len(p). -/
def limitedWriter.Write (lw : limitedWriter) (p : List Nat) :
    limitedWriter × Nat × Option String :=
  let remaining : Int := lw.limit - lw.written
  if remaining ≤ 0 then (lw, p.length, none)
  else
    let p1 := if (p.length : Int) > remaining then p.take remaining.toNat else p
    ({ lw with buf := lw.buf ++ p1, written := lw.written + p1.length }, p1.length, none)

/-- A sequence of Write calls, applied in order. -/
def limitedWriter.writeAll (lw : limitedWriter) (ps : List (List Nat)) : limitedWriter :=
  ps.foldl (fun w p => (w.Write p).1) lw

/-! ### conversation.go: ProcessMessage -/

/-- The conversation-store operations ProcessMessage uses, over an abstract
store state: Get, and AddMessage returning the new state together with the
error that ProcessMessage only logs. -/
structure StoreOps (σ : Type) where
  get : σ → String → Except String (Option Conversation)
  addMessage : σ → String → String → Message → σ × Option String

/-- buildMessageHistory from conversation.go: stored turns become message
params by role; other roles are dropped. -/
def buildMessageHistory (conv : Option Conversation) : List MessageParam :=
  match conv with
  | none => []
  | some c =>
    c.messages.filterMap (fun m =>
      if m.role = "user" then some (BuildUserMessage m.content)
      else if m.role = "assistant" then some (BuildAssistantMessage m.content)
      else none)

/-- ProcessMessage from conversation.go: fetch the conversation, build the
in-memory history, append the user turn, persist it (logging any store
error), run the tool loop on the in-memory history, persist the assistant
turn (again only logging a store error), and return the response. -/
def ProcessMessage {σ : Type} (store : StoreOps σ) (client : ModelClient)
    (executor : ToolExecutorFn) (st : σ)
    (conversationID channelID userMessage : String) : Except String String × σ :=
  match store.get st conversationID with
  | .error e => (.error ("failed to get conversation: " ++ e), st)
  | .ok conv =>
    let messages := buildMessageHistory conv ++ [BuildUserMessage userMessage]
    let st1 := (store.addMessage st conversationID channelID
        { role := "user", content := userMessage, timestamp := 0 }).1
    match (processWithToolLoop client executor messages).1 with
    | .error e => (.error e, st1)
    | .ok response =>
      let st2 := (store.addMessage st1 conversationID channelID
        { role := "assistant", content := response, timestamp := 0 }).1
      (.ok response, st2)

/-! ### Concrete stubs used by the witnesses -/

/-- A model stub that always requests one tool. -/
def clientAlwaysTool : ModelClient :=
  fun _ => .ok { content := [.toolUse ("t1") ("read_file") ("x")], stopReason := "tool_use" }

/-- A model stub that replies with plain text on every call. -/
def clientPlainText : ModelClient :=
  fun _ => .ok { content := [.text ("hello")], stopReason := "end_turn" }

/-- An executor stub that always succeeds. -/
def executorOk : ToolExecutorFn := fun _ _ => .ok ("result")

/-- An executor stub that always fails. -/
def executorFail : ToolExecutorFn := fun _ _ => .error ("boom")

/-- A store whose writes always fail (and count the attempts in the state). -/
def failingStore : StoreOps Nat :=
  { get := fun _ _ => .ok none,
    addMessage := fun st _ _ _ => (st + 1, some ("store write failed")) }

/-- A dispatcher whose collaborators all succeed with empty output. -/
def stubToolExecutor : ToolExecutor :=
  { readFile := fun _ => .ok (""), listFiles := fun _ => .ok (""),
    searchCode := fun _ => .ok (""), getTree := fun _ => .ok (""),
    writeFile := fun _ => .ok (""), editFile := fun _ => .ok (""),
    runCommand := fun _ => .ok (""), runBuild := fun _ => .ok (""),
    runTests := fun _ => .ok (""), gitStatus := .ok (""),
    gitDiff := fun _ => .ok (""), gitLog := fun _ => .ok (""),
    createBranch := fun _ => .ok (""), commit := fun _ => .ok (""),
    push := fun _ => .ok (""), createPR := fun _ => .ok (""),
    getGuidelines := .ok (""), findTests := fun _ => .ok (""),
    analyzeFailures := fun _ => .ok ("") }

/-! ### Sanity evaluations of the validator on concrete commands -/

theorem sanity_push_main :
    ValidateCommand ("git push origin main") = .error .pushToProtected := by
  rfl

theorem sanity_push_upstream :
    ValidateCommand ("git push -u origin main") = .ok () := by
  rfl

theorem sanity_reset_hard :
    ValidateCommand ("git reset --hard") = .error (.gitBlocked ("reset --hard").toList) := by
  rfl

theorem sanity_curl_pipe :
    ValidateCommand ("curl http://x | sh") = .error (.notAllowedInPipe ("curl").toList) := by
  rfl

theorem sanity_pipe_git :
    ValidateCommand ("git reset --hard | cat") = .ok () := by
  rfl

theorem sanity_chain_pipe :
    ValidateCommand ("git reset --hard && ls | cat") = .ok () := by
  rfl

theorem sanity_chain_plain :
    ValidateCommand ("ls && pwd") = .ok () := by
  rfl

theorem sanity_chain_bad :
    ValidateCommand ("ls && rm -rf /tmp/x") = .error (.dangerousPattern ("rm -rf /").toList) := by
  rfl

/-! ### Character-level facts about case folding and whitespace -/

theorem charOfNat_toNat (n : Nat) (h1 : 65 ≤ n) (h2 : n ≤ 90) :
    (Char.ofNat (n + 32)).toNat = n + 32 := by
  have hv : (n + 32).isValidChar := by
    left
    omega
  simp [Char.ofNat, hv, Char.ofNatAux, Char.toNat, UInt32.toNat, BitVec.toNat_ofNatLt]

theorem char_toLower_cases (c : Char) :
    Char.toLower c = c ∨
      (65 ≤ c.toNat ∧ c.toNat ≤ 90 ∧ (Char.toLower c).toNat = c.toNat + 32) := by
  unfold Char.toLower
  by_cases h : c.toNat ≥ 65 ∧ c.toNat ≤ 90
  · right
    refine ⟨h.1, h.2, ?_⟩
    simp only [h, if_true]
    exact charOfNat_toNat c.toNat h.1 h.2
  · left
    simp [h]

theorem toLower_eq_fixed (d c : Char) (hd : d.toNat < 97 ∨ 122 < d.toNat)
    (h : Char.toLower c = d) : c = d := by
  rcases char_toLower_cases c with hc | ⟨h1, h2, hc⟩
  · rw [← hc, h]
  · rw [h] at hc
    omega

theorem isSpace_of_ge (c : Char) (h : 33 ≤ c.toNat) : isSpace c = false := by
  unfold isSpace
  apply decide_eq_false
  intro hc
  rcases hc with hc | hc | hc | hc | hc | hc <;>
    (subst hc; exact absurd h (by decide))

theorem isSpace_toLower (c : Char) : isSpace (Char.toLower c) = isSpace c := by
  rcases char_toLower_cases c with hc | ⟨h1, _, h3⟩
  · rw [hc]
  · rw [isSpace_of_ge c (by omega), isSpace_of_ge (Char.toLower c) (by omega)]

/-! ### Trimming preserves interior substrings -/

theorem infix_dropWhile_of_head (p : Char → Bool) (sub l : List Char) (hne : sub ≠ [])
    (hh : ∀ c, sub.head? = some c → p c = false) (h : sub <:+: l) :
    sub <:+: l.dropWhile p := by
  obtain ⟨a, b, rfl⟩ := h
  have hsub : List.dropWhile p sub = sub := by
    cases sub with
    | nil => rfl
    | cons c t =>
      have := hh c (by simp)
      simp [List.dropWhile_cons, this]
  rw [List.append_assoc, List.dropWhile_append]
  by_cases ha : (List.dropWhile p a).isEmpty = true
  · rw [if_pos ha, List.dropWhile_append, hsub]
    have : sub.isEmpty = false := by
      cases sub with
      | nil => exact absurd rfl hne
      | cons c t => rfl
    rw [if_neg (by simp [this])]
    exact ⟨[], b, by simp⟩
  · rw [if_neg ha]
    exact ⟨List.dropWhile p a, b, by simp⟩

theorem infix_dropTrailing_of_getLast (p : Char → Bool) (sub l : List Char) (hne : sub ≠ [])
    (hl : ∀ c, sub.getLast? = some c → p c = false) (h : sub <:+: l) :
    sub <:+: dropTrailing p l := by
  have hrevne : sub.reverse ≠ [] := by simp [hne]
  have hhead : ∀ c, sub.reverse.head? = some c → p c = false := by
    intro c hc
    rw [List.head?_reverse] at hc
    exact hl c hc
  have hrev : sub.reverse <:+: l.reverse := List.reverse_infix.mpr h
  have h2 : sub.reverse <:+: l.reverse.dropWhile p :=
    infix_dropWhile_of_head p sub.reverse l.reverse hrevne hhead hrev
  have h3 := List.reverse_infix.mpr h2
  simpa [dropTrailing] using h3

theorem infix_trimL (sub l : List Char) (hne : sub ≠ [])
    (hh : ∀ c, sub.head? = some c → isSpace c = false)
    (hl : ∀ c, sub.getLast? = some c → isSpace c = false)
    (h : sub <:+: l) : sub <:+: trimL l := by
  unfold trimL
  exact infix_dropWhile_of_head isSpace sub _ hne hh
    (infix_dropTrailing_of_getLast isSpace sub l hne hl h)

/-! ### Structural facts about trimL -/

theorem trimL_nil : trimL [] = [] := rfl

theorem head?_dropWhile (p : Char → Bool) (l : List Char) :
    ∀ c, (l.dropWhile p).head? = some c → p c = false := by
  intro c hc
  have hne : l.dropWhile p ≠ [] := by
    intro h0
    rw [h0] at hc
    cases hc
  have hthis := List.head_dropWhile_not p l hne
  rw [List.head?_eq_head hne] at hc
  cases hc
  exact hthis

theorem head?_trimL (l : List Char) :
    ∀ c, (trimL l).head? = some c → isSpace c = false :=
  head?_dropWhile isSpace (dropTrailing isSpace l)

theorem getLast?_dropTrailing (p : Char → Bool) (l : List Char) :
    ∀ c, (dropTrailing p l).getLast? = some c → p c = false := by
  intro c hc
  apply head?_dropWhile p l.reverse c
  rw [← List.getLast?_reverse (List.dropWhile p l.reverse)]
  simpa [dropTrailing] using hc

theorem suffix_getLast? (s t : List Char) (h : s <:+ t) (hs : s ≠ []) :
    t.getLast? = s.getLast? := by
  obtain ⟨u, rfl⟩ := h
  rw [List.getLast?_append]
  cases hl : s.getLast? with
  | none => rw [List.getLast?_eq_none_iff] at hl; exact absurd hl hs
  | some c => rfl

theorem getLast?_trimL (l : List Char) :
    ∀ c, (trimL l).getLast? = some c → isSpace c = false := by
  intro c hc
  by_cases hne : trimL l = []
  · rw [hne] at hc
    cases hc
  · have hsuf : trimL l <:+ dropTrailing isSpace l := List.dropWhile_suffix isSpace
    have heq := suffix_getLast? (trimL l) (dropTrailing isSpace l) hsuf hne
    exact getLast?_dropTrailing isSpace l c (by rw [heq]; exact hc)

theorem dropWhile_eq_self_of_head? (p : Char → Bool) (l : List Char)
    (hl : ∀ c, l.head? = some c → p c = false) : l.dropWhile p = l := by
  cases l with
  | nil => rfl
  | cons c t =>
    have := hl c (by simp)
    simp [List.dropWhile_cons, this]

theorem dropTrailing_eq_self_of_getLast? (p : Char → Bool) (l : List Char)
    (hl : ∀ c, l.getLast? = some c → p c = false) : dropTrailing p l = l := by
  unfold dropTrailing
  rw [dropWhile_eq_self_of_head?]
  · exact List.reverse_reverse l
  · intro c hc
    rw [List.head?_reverse] at hc
    exact hl c hc

theorem trimL_idem (l : List Char) : trimL (trimL l) = trimL l := by
  show (dropTrailing isSpace (trimL l)).dropWhile isSpace = trimL l
  rw [dropTrailing_eq_self_of_getLast? isSpace _ (getLast?_trimL l),
    dropWhile_eq_self_of_head? isSpace _ (head?_trimL l)]

theorem lowerL_trimL (l : List Char) : lowerL (trimL l) = trimL (lowerL l) := by
  have hf : (isSpace ∘ Char.toLower) = isSpace := funext (fun c => isSpace_toLower c)
  unfold trimL lowerL dropTrailing
  rw [← List.map_reverse, List.dropWhile_map, hf, ← List.map_reverse, List.dropWhile_map, hf]

/-! ### The deny-list scan -/

theorem dangerous_edges :
    ∀ q ∈ DangerousPatterns, lowerL q ≠ [] ∧
      isSpace ((lowerL q).headD ' ') = false ∧
      isSpace ((lowerL q).getLastD ' ') = false := by
  decide

theorem trimL_ne_nil_of_infix (sub l : List Char) (hne : sub ≠ [])
    (h : sub <:+: lowerL (trimL l)) : trimL l ≠ [] := by
  intro hcon
  rw [hcon] at h
  simp only [lowerL, List.map_nil, List.infix_nil] at h
  exact hne h

/-- Claim C1: a command that contains (case-folded, literally) a deny-list
entry is rejected by ValidateCommand with a matched deny-list entry as the
reason, regardless of the allowlist: the forbidden-substring scan runs before
the allowlist check. -/
theorem claim_C1 (s : String) (p : List Char) (hp : p ∈ DangerousPatterns)
    (hmatch : lowerL p <:+: lowerL s.toList) :
    ∃ q ∈ DangerousPatterns, (lowerL q <:+: lowerL (trimL s.toList)) ∧
      ValidateCommand s = .error (.dangerousPattern q) := by
  obtain ⟨hne, hh, hl⟩ := dangerous_edges p hp
  have hh2 : ∀ c, (lowerL p).head? = some c → isSpace c = false := by
    intro c hc
    rw [List.headD_eq_head?, hc] at hh
    exact hh
  have hl2 : ∀ c, (lowerL p).getLast? = some c → isSpace c = false := by
    intro c hc
    rw [List.getLastD_eq_getLast?, hc] at hl
    exact hl
  have hmatch2 : lowerL p <:+: trimL (lowerL s.toList) :=
    infix_trimL (lowerL p) (lowerL s.toList) hne hh2 hl2 hmatch
  rw [← lowerL_trimL] at hmatch2
  have ht : trimL s.toList ≠ [] := trimL_ne_nil_of_infix (lowerL p) s.toList hne hmatch2
  have hsome : (List.find? (fun q => decide (lowerL q <:+: lowerL (trimL s.toList)))
      DangerousPatterns).isSome := by
    apply List.find?_isSome.mpr
    exact ⟨p, hp, by simpa using hmatch2⟩
  obtain ⟨q, hq⟩ := Option.isSome_iff_exists.mp hsome
  refine ⟨q, List.mem_of_find?_eq_some hq, by simpa using List.find?_some hq, ?_⟩
  unfold ValidateCommand validateCore validateStep
  rw [if_neg ht, hq]

theorem claim_C1_witness :
    ∃ q ∈ DangerousPatterns,
      (lowerL q <:+: lowerL (trimL ("echo SUDO ok").toList)) ∧
        ValidateCommand ("echo SUDO ok") = .error (.dangerousPattern q) := by
  exact claim_C1 ("echo SUDO ok") (("sudo").toList) (by decide) (by decide)

/-! ### Fields of a trimmed command -/

theorem fieldsAux_ne_nil : ∀ (l acc : List Char), acc ≠ [] → fieldsAux l acc ≠ [] := by
  intro l
  induction l with
  | nil =>
    intro acc h
    simp [fieldsAux, h]
  | cons c rest ih =>
    intro acc h
    simp only [fieldsAux]
    by_cases hs : isSpace c = true
    · rw [if_pos hs, if_neg h]
      simp
    · rw [if_neg hs]
      exact ih _ (by simp)

theorem fieldsL_trimL_ne (x : List Char) (h : trimL x ≠ []) : fieldsL (trimL x) ≠ [] := by
  cases ht : trimL x with
  | nil => exact absurd ht h
  | cons c t =>
    have hc : isSpace c = false := head?_trimL x c (by rw [ht]; rfl)
    show fieldsAux (c :: t) [] ≠ []
    simp only [fieldsAux]
    rw [if_neg (by simp [hc])]
    exact fieldsAux_ne_nil t [c] (by simp)

/-! ### The pipe branch of the validator -/

theorem validateStep_eq_pipe (h : List Char → Except VErr Unit) (x : List Char)
    (ht : trimL x ≠ [])
    (hd : List.find? (fun p => decide (lowerL p <:+: lowerL (trimL x)))
        DangerousPatterns = none)
    (hp : (['|'] : List Char) <:+: trimL x) :
    validateStep h x = validatePipeChain (trimL x) := by
  simp only [validateStep]
  rw [if_neg ht]
  split
  · rename_i p hfind
    rw [hd] at hfind
    cases hfind
  · split
    · rename_i hnil
      exact absurd hnil (fieldsL_trimL_ne x ht)
    · rw [if_pos hp]

theorem pipeLoop_ok_iff : ∀ segs : List (List Char),
    pipeLoop segs = .ok () ↔
      ∀ seg ∈ segs, ∀ w ws, fieldsL (trimL seg) = w :: ws → isAllowedCommand w = true := by
  intro segs
  induction segs with
  | nil => simp [pipeLoop]
  | cons pipe rest ih =>
    simp only [pipeLoop]
    by_cases hp : trimL pipe = []
    · rw [if_pos hp]
      constructor
      · intro h seg hm w ws hf
        rcases List.mem_cons.mp hm with rfl | hm2
        · rw [hp] at hf
          cases hf
        · exact (ih.mp h) seg hm2 w ws hf
      · intro h
        exact ih.mpr (fun seg hm w ws hf => h seg (List.mem_cons_of_mem _ hm) w ws hf)
    · rw [if_neg hp]
      split
      · rename_i hf
        constructor
        · intro h seg hm w ws hf2
          rcases List.mem_cons.mp hm with rfl | hm2
          · rw [hf] at hf2
            cases hf2
          · exact (ih.mp h) seg hm2 w ws hf2
        · intro h
          exact ih.mpr (fun seg hm w ws hf2 => h seg (List.mem_cons_of_mem _ hm) w ws hf2)
      · rename_i w ws hf
        by_cases hw : isAllowedCommand w = true
        · rw [if_pos hw]
          constructor
          · intro h seg hm w2 ws2 hf2
            rcases List.mem_cons.mp hm with rfl | hm2
            · rw [hf] at hf2
              simp only [List.cons.injEq] at hf2
              rw [← hf2.1]
              exact hw
            · exact (ih.mp h) _ hm2 _ _ hf2
          · intro h
            exact ih.mpr (fun seg hm w2 ws2 hf2 => h seg (List.mem_cons_of_mem _ hm) _ _ hf2)
        · rw [if_neg hw]
          constructor
          · intro h
            cases h
          · intro h
            exact absurd (h pipe (List.mem_cons_self _ _) w ws hf) hw

/-- Claim C4: a piped command that survives the deny-list scan is routed to
validatePipeChain, which checks only that the leading field of each pipe
segment is allowlisted and never invokes the git-specific checks; in
particular the piped command "git reset --hard | cat" is allowed although the
unpiped "git reset --hard" is rejected. -/
theorem claim_C4 :
    (∀ s : String, trimL s.toList ≠ [] →
        List.find? (fun p => decide (lowerL p <:+: lowerL (trimL s.toList)))
            DangerousPatterns = none →
        (['|'] : List Char) <:+: trimL s.toList →
        ValidateCommand s = validatePipeChain (trimL s.toList)) ∧
    (∀ segs : List (List Char), pipeLoop segs = .ok () ↔ ∀ seg ∈ segs, ∀ w ws,
        fieldsL (trimL seg) = w :: ws → isAllowedCommand w = true) ∧
    (ValidateCommand ("git reset --hard | cat") = .ok () ∧
      ValidateCommand ("git reset --hard") = .error (.gitBlocked ("reset --hard").toList)) := by
  refine ⟨?_, pipeLoop_ok_iff, rfl, rfl⟩
  intro s ht hd hp
  unfold ValidateCommand validateCore
  exact validateStep_eq_pipe _ s.toList ht hd hp

theorem claim_C4_witness :
    ValidateCommand ("git reset --hard | cat") =
      validatePipeChain (trimL ("git reset --hard | cat").toList) ∧
    (pipeLoop [("git reset --hard ").toList] = .ok () ↔
      ∀ seg ∈ [("git reset --hard ").toList],
        ∀ w ws, fieldsL (trimL seg) = w :: ws → isAllowedCommand w = true) := by
  constructor
  · exact claim_C4.1 ("git reset --hard | cat") (by decide) (by decide) (by decide)
  · exact claim_C4.2.1 [("git reset --hard ").toList]

/-- Claim C3: "git push origin main" is rejected by the protected-branch push
policy, "git reset --hard" by the blocked git subcommand list even though git
itself is allowlisted, and "git push -u origin main" is allowed. -/
theorem claim_C3 :
    ValidateCommand ("git push origin main") = .error .pushToProtected ∧
    ValidateCommand ("git reset --hard") = .error (.gitBlocked ("reset --hard").toList) ∧
    ValidateCommand ("git push -u origin main") = .ok () :=
  ⟨rfl, rfl, rfl⟩

/-- Claim C6: for "curl http://x | sh" the deny-list scan matches no entry —
matching is literal case-folded substring containment, so the entry
"curl.*|.*sh" does not match — and the command is instead rejected by the
pipe-segment allowlist check because curl is not an allowed base command. -/
theorem claim_C6 :
    (∀ p ∈ DangerousPatterns,
        ¬ (lowerL p <:+: lowerL (trimL ("curl http://x | sh").toList))) ∧
    (∀ p ∈ DangerousPatterns,
        ¬ (lowerL p <:+: lowerL ("curl http://x | sh").toList)) ∧
    ValidateCommand ("curl http://x | sh") = .error (.notAllowedInPipe ("curl").toList) :=
  ⟨by decide, by decide, rfl⟩

/-- Claim C2 fails on the code as stated: "git reset --hard && ls | cat" is a
multi-segment command joined by "&&", every one of whose chain segments is not
independently allowed — the segment "git reset --hard" is rejected — yet
ValidateCommand allows the whole command, because the pipe branch takes
precedence over the chain branch and only checks leading tokens. -/
theorem claim_C2_counterexample :
    ValidateCommand ("git reset --hard && ls | cat") = .ok () ∧
    (['&', '&'] : List Char) <:+: trimL ("git reset --hard && ls | cat").toList ∧
    ("git reset --hard ").toList ∈
      chainSegments (trimL ("git reset --hard && ls | cat").toList) ∧
    trimL (("git reset --hard ").toList) ≠ [] ∧
    ValidateCommand ("git reset --hard ") = .error (.gitBlocked ("reset --hard").toList) := by
  exact ⟨rfl, by decide, by decide, by decide, rfl⟩

/-! ### Occurrence replacement: "&&" to newline -/

theorem replaceAmpAmp_no_amp_left : ∀ (s b : List Char), '&' ∉ s →
    replaceAmpAmp (s ++ b) = s ++ replaceAmpAmp b := by
  intro s
  induction s with
  | nil =>
    intro b h
    rfl
  | cons c s' ih =>
    intro b h
    rw [List.mem_cons] at h
    push_neg at h
    have hc : c ≠ '&' := fun hcc => h.1 hcc.symm
    cases hsb : s' ++ b with
    | nil =>
      obtain ⟨hs', hb⟩ := List.append_eq_nil.mp hsb
      subst hs'
      subst hb
      simp [replaceAmpAmp]
    | cons d L =>
      have hstep : replaceAmpAmp (c :: (s' ++ b)) = c :: replaceAmpAmp (s' ++ b) := by
        rw [hsb]
        simp only [replaceAmpAmp]
        rw [if_neg (fun hcd => hc hcd.1)]
      rw [List.cons_append, hstep, ih b h.2]
      rfl

theorem replaceAmpAmp_append_head_ne : ∀ (a : List Char) (d : Char) (L : List Char),
    d ≠ '&' → replaceAmpAmp (a ++ d :: L) = replaceAmpAmp a ++ replaceAmpAmp (d :: L) := by
  intro a
  induction a using replaceAmpAmp.induct with
  | case1 =>
    intro d L h
    rfl
  | case2 x =>
    intro d L h
    show replaceAmpAmp (x :: d :: L) = replaceAmpAmp [x] ++ replaceAmpAmp (d :: L)
    simp only [replaceAmpAmp]
    rw [if_neg (fun hcd => h hcd.2)]
    rfl
  | case3 x y rest hxy ih =>
    intro d L h
    obtain ⟨rfl, rfl⟩ := hxy
    show '\n' :: replaceAmpAmp (rest ++ d :: L) =
      ('\n' :: replaceAmpAmp rest) ++ replaceAmpAmp (d :: L)
    rw [ih d L h]
    rfl
  | case4 x y rest hxy ih =>
    intro d L h
    show replaceAmpAmp (x :: ((y :: rest) ++ d :: L)) =
      replaceAmpAmp (x :: y :: rest) ++ replaceAmpAmp (d :: L)
    have hyr : (y :: rest) ++ d :: L = y :: (rest ++ d :: L) := rfl
    simp only [replaceAmpAmp]
    rw [if_neg hxy, if_neg hxy]
    show x :: replaceAmpAmp ((y :: rest) ++ d :: L) =
      (x :: replaceAmpAmp (y :: rest)) ++ replaceAmpAmp (d :: L)
    rw [ih d L h]
    rfl

theorem replaceAmpAmp_no_amp (s : List Char) (h : '&' ∉ s) : replaceAmpAmp s = s := by
  have h2 := replaceAmpAmp_no_amp_left s [] h
  rw [List.append_nil] at h2
  rw [h2, show replaceAmpAmp [] = [] from rfl, List.append_nil]

theorem infix_replaceAmpAmp (sub l : List Char) (hne : sub ≠ []) (hamp : '&' ∉ sub)
    (h : sub <:+: l) : sub <:+: replaceAmpAmp l := by
  obtain ⟨a, b, rfl⟩ := h
  cases sub with
  | nil => exact absurd rfl hne
  | cons c s' =>
    have hc : c ≠ '&' := fun hcc => hamp (List.mem_cons.mpr (Or.inl hcc.symm))
    have h1 : replaceAmpAmp (a ++ (c :: (s' ++ b))) =
        replaceAmpAmp a ++ replaceAmpAmp (c :: (s' ++ b)) :=
      replaceAmpAmp_append_head_ne a c (s' ++ b) hc
    have h2 : replaceAmpAmp (c :: (s' ++ b)) = (c :: s') ++ replaceAmpAmp b :=
      replaceAmpAmp_no_amp_left (c :: s') b hamp
    have hR : replaceAmpAmp (a ++ (c :: s') ++ b) =
        replaceAmpAmp a ++ (c :: s') ++ replaceAmpAmp b := by
      rw [List.append_assoc]
      rw [show a ++ ((c :: s') ++ b) = a ++ (c :: (s' ++ b)) from rfl, h1, h2]
      rw [List.append_assoc]
    exact ⟨replaceAmpAmp a, replaceAmpAmp b, hR.symm⟩

theorem replaceAmpAmp_cons_ne (y : Char) (rest : List Char) (hy : y ≠ '&') :
    ∃ Z, replaceAmpAmp (y :: rest) = y :: Z := by
  cases rest with
  | nil => exact ⟨[], rfl⟩
  | cons z r =>
    refine ⟨replaceAmpAmp (z :: r), ?_⟩
    simp only [replaceAmpAmp]
    rw [if_neg (fun hc => hy hc.1)]

theorem no_ampamp_replaceAmpAmp : ∀ l : List Char,
    ¬ ((['&', '&'] : List Char) <:+: replaceAmpAmp l) := by
  intro l
  induction l using replaceAmpAmp.induct with
  | case1 =>
    intro h
    rw [show replaceAmpAmp [] = [] from rfl, List.infix_nil] at h
    cases h
  | case2 x =>
    intro h
    have h2 := h.length_le
    simp [replaceAmpAmp] at h2
  | case3 x y rest hxy ih =>
    obtain ⟨rfl, rfl⟩ := hxy
    intro h
    rw [show replaceAmpAmp ('&' :: '&' :: rest) = '\n' :: replaceAmpAmp rest from by
      simp [replaceAmpAmp]] at h
    rcases List.infix_cons_iff.mp h with hpre | hinf
    · rcases List.prefix_cons_iff.mp hpre with h0 | ⟨t, het, _⟩
      · cases h0
      · cases het
    · exact ih hinf
  | case4 x y rest hxy ih =>
    intro h
    rw [show replaceAmpAmp (x :: y :: rest) = x :: replaceAmpAmp (y :: rest) from by
      simp only [replaceAmpAmp]; rw [if_neg hxy]] at h
    rcases List.infix_cons_iff.mp h with hpre | hinf
    · rcases List.prefix_cons_iff.mp hpre with h0 | ⟨t, het, hpt⟩
      · cases h0
      · have hx : x = '&' := by
          injection het with h1 _
          exact h1.symm
        have ht : t = ['&'] := by
          injection het with _ h2
          exact h2.symm
        subst hx
        subst ht
        have hy : y ≠ '&' := fun hyy => hxy ⟨rfl, hyy⟩
        obtain ⟨Z, hZ⟩ := replaceAmpAmp_cons_ne y rest hy
        rw [hZ] at hpt
        rcases List.prefix_cons_iff.mp hpt with h0 | ⟨t2, het2, _⟩
        · cases h0
        · injection het2 with ha _
          exact hy ha.symm
    · exact ih hinf

/-! ### Occurrence replacement: ";" to newline -/

theorem semi_not_mem_semiToNewline (R : List Char) : ';' ∉ semiToNewline R := by
  intro h
  rw [semiToNewline, List.mem_map] at h
  obtain ⟨c, _, hc⟩ := h
  by_cases hcs : c = ';'
  · rw [if_pos hcs] at hc
    exact absurd hc (by decide)
  · rw [if_neg hcs] at hc
    exact hcs hc

theorem no_ampamp_semiToNewline (R : List Char) (h : ¬ ((['&', '&'] : List Char) <:+: R)) :
    ¬ ((['&', '&'] : List Char) <:+: semiToNewline R) := by
  intro hc
  apply h
  obtain ⟨a, b, hab⟩ := hc
  rw [List.append_assoc] at hab
  have hab2 : semiToNewline R = a ++ ('&' :: '&' :: b) := by
    rw [← hab]
    rfl
  have hab3 : List.map (fun c => if c = ';' then '\n' else c) R =
      a ++ ('&' :: '&' :: b) := hab2
  rcases List.map_eq_append_iff.mp hab3 with ⟨l₁, l₂, rfl, hm1, hm2⟩
  rcases List.map_eq_cons_iff.mp hm2 with ⟨c1, l₂x, rfl, hc1, hm3⟩
  rcases List.map_eq_cons_iff.mp hm3 with ⟨c2, l₂y, rfl, hc2, hm4⟩
  have h1 : c1 = '&' := by
    by_cases hcs : c1 = ';'
    · rw [if_pos hcs] at hc1
      exact absurd hc1 (by decide)
    · rw [if_neg hcs] at hc1
      exact hc1
  have h2 : c2 = '&' := by
    by_cases hcs : c2 = ';'
    · rw [if_pos hcs] at hc2
      exact absurd hc2 (by decide)
    · rw [if_neg hcs] at hc2
      exact hc2
  subst h1
  subst h2
  exact ⟨l₁, l₂y, by simp⟩

theorem infix_semiToNewline (sub R : List Char) (hs : ';' ∉ sub) (h : sub <:+: R) :
    sub <:+: semiToNewline R := by
  have h2 := List.IsInfix.map (fun c => if c = ';' then '\n' else c) h
  have h3 : List.map (fun c => if c = ';' then '\n' else c) sub = List.map id sub :=
    List.map_congr_left (fun c hc => by rw [if_neg (fun hcs => hs (by rw [← hcs]; exact hc))]; rfl)
  rw [h3, List.map_id] at h2
  exact h2

/-! ### Splitting on a separator -/

theorem intercalate_singletonList (s a : List Char) : List.intercalate s [a] = a := by
  simp [List.intercalate]

theorem intercalate_cons_of_ne (s a : List Char) (t : List (List Char)) (h : t ≠ []) :
    List.intercalate s (a :: t) = a ++ s ++ List.intercalate s t := by
  cases t with
  | nil => exact absurd rfl h
  | cons b t' =>
    simp [List.intercalate, List.intersperse_cons_cons]

theorem mem_infix_intercalate (s x : List Char) (ls : List (List Char)) (h : x ∈ ls) :
    x <:+: List.intercalate s ls := by
  induction ls with
  | nil => cases h
  | cons a t ih =>
    rcases List.mem_cons.mp h with rfl | hm
    · cases t with
      | nil =>
        rw [intercalate_singletonList]
      | cons b t' =>
        rw [intercalate_cons_of_ne s x (b :: t') (by simp)]
        exact ⟨[], s ++ List.intercalate s (b :: t'), by simp⟩
    · cases t with
      | nil => cases hm
      | cons b t' =>
        rw [intercalate_cons_of_ne s a (b :: t') (by simp)]
        obtain ⟨u, v, huv⟩ := ih hm
        exact ⟨a ++ s ++ u, v, by rw [← huv]; simp⟩

theorem prefix_append_cons (c : Char) : ∀ (t X Y : List Char), c ∉ t →
    t <+: X ++ c :: Y → t <+: X := by
  intro t
  induction t with
  | nil =>
    intro X Y h hp
    exact List.nil_prefix
  | cons a t' ih =>
    intro X Y h hp
    cases X with
    | nil =>
      rw [List.nil_append] at hp
      rcases List.cons_prefix_cons.mp hp with ⟨rfl, _⟩
      exact absurd (List.mem_cons_self _ _) h
    | cons x X' =>
      rcases List.cons_prefix_cons.mp hp with ⟨rfl, hp2⟩
      exact List.cons_prefix_cons.mpr
        ⟨rfl, ih X' Y (fun hm => h (List.mem_cons_of_mem _ hm)) hp2⟩

theorem infix_append_cons_split (c : Char) : ∀ (X Y sub : List Char), c ∉ sub →
    sub <:+: X ++ c :: Y → sub <:+: X ∨ sub <:+: Y := by
  intro X
  induction X with
  | nil =>
    intro Y sub h hi
    rw [List.nil_append] at hi
    rcases List.infix_cons_iff.mp hi with hpre | hinf
    · rcases List.prefix_cons_iff.mp hpre with h0 | ⟨t, rfl, _⟩
      · rw [h0]
        exact Or.inl List.nil_infix
      · exact absurd (List.mem_cons_self c t) h
    · exact Or.inr hinf
  | cons x X' ih =>
    intro Y sub h hi
    rw [List.cons_append] at hi
    rcases List.infix_cons_iff.mp hi with hpre | hinf
    · rcases List.prefix_cons_iff.mp hpre with h0 | ⟨t, rfl, hpt⟩
      · rw [h0]
        exact Or.inl List.nil_infix
      · have ht : t <+: X' :=
          prefix_append_cons c t X' Y (fun hm => h (List.mem_cons_of_mem _ hm)) hpt
        exact Or.inl (List.IsPrefix.isInfix (List.cons_prefix_cons.mpr ⟨rfl, ht⟩))
    · rcases ih Y sub h hinf with hl | hr
      · exact Or.inl (List.infix_cons hl)
      · exact Or.inr hr

theorem infix_intercalate_split (c : Char) : ∀ (ls : List (List Char)) (sub : List Char),
    sub ≠ [] → c ∉ sub → sub <:+: List.intercalate [c] ls → ∃ x ∈ ls, sub <:+: x := by
  intro ls
  induction ls with
  | nil =>
    intro sub hne hc h
    rw [show List.intercalate [c] ([] : List (List Char)) = [] from by
      simp [List.intercalate], List.infix_nil] at h
    exact absurd h hne
  | cons a t ih =>
    intro sub hne hc h
    cases t with
    | nil =>
      rw [intercalate_singletonList] at h
      exact ⟨a, List.mem_cons_self _ _, h⟩
    | cons b t' =>
      rw [intercalate_cons_of_ne [c] a (b :: t') (by simp), List.append_assoc,
        List.singleton_append] at h
      rcases infix_append_cons_split c a (List.intercalate [c] (b :: t')) sub hc h with hl | hr
      · exact ⟨a, List.mem_cons_self _ _, hl⟩
      · obtain ⟨x, hx, hix⟩ := ih sub hne hc hr
        exact ⟨x, List.mem_cons_of_mem _ hx, hix⟩

/-! ### Case folding commutes with the chain decomposition -/

theorem toLower_fixed_iff (d : Char) (hd : d.toNat < 97 ∨ 122 < d.toNat)
    (hfix : Char.toLower d = d) (c : Char) : Char.toLower c = d ↔ c = d :=
  ⟨toLower_eq_fixed d c hd, fun h => by rw [h]; exact hfix⟩

theorem toLower_amp_iff (c : Char) : Char.toLower c = '&' ↔ c = '&' :=
  toLower_fixed_iff '&' (by decide) (by decide) c

theorem toLower_semi_iff (c : Char) : Char.toLower c = ';' ↔ c = ';' :=
  toLower_fixed_iff ';' (by decide) (by decide) c

theorem lowerL_replaceAmpAmp : ∀ l : List Char,
    lowerL (replaceAmpAmp l) = replaceAmpAmp (lowerL l) := by
  intro l
  induction l using replaceAmpAmp.induct with
  | case1 => rfl
  | case2 x => rfl
  | case3 x y rest hxy ih =>
    obtain ⟨rfl, rfl⟩ := hxy
    show '\n' :: lowerL (replaceAmpAmp rest) = '\n' :: replaceAmpAmp (lowerL rest)
    rw [ih]
  | case4 x y rest hxy ih =>
    have hcond : ¬ (Char.toLower x = '&' ∧ Char.toLower y = '&') := by
      intro hc
      exact hxy ⟨(toLower_amp_iff x).mp hc.1, (toLower_amp_iff y).mp hc.2⟩
    have hstepL : replaceAmpAmp (x :: y :: rest) = x :: replaceAmpAmp (y :: rest) := by
      simp only [replaceAmpAmp]
      rw [if_neg hxy]
    have hstepR : replaceAmpAmp (Char.toLower x :: Char.toLower y :: lowerL rest) =
        Char.toLower x :: replaceAmpAmp (Char.toLower y :: lowerL rest) := by
      simp only [replaceAmpAmp]
      rw [if_neg hcond]
    show lowerL (replaceAmpAmp (x :: y :: rest)) = replaceAmpAmp (lowerL (x :: y :: rest))
    rw [hstepL,
      show lowerL (x :: replaceAmpAmp (y :: rest)) =
        Char.toLower x :: lowerL (replaceAmpAmp (y :: rest)) from rfl,
      ih,
      show lowerL (x :: y :: rest) =
        Char.toLower x :: Char.toLower y :: lowerL rest from rfl,
      hstepR]
    rfl

theorem lowerL_semiToNewline (R : List Char) :
    lowerL (semiToNewline R) = semiToNewline (lowerL R) := by
  unfold lowerL semiToNewline
  rw [List.map_map, List.map_map]
  apply List.map_congr_left
  intro c _
  by_cases hc : c = ';'
  · subst hc
    decide
  · have h2 : Char.toLower c ≠ ';' := fun h => hc ((toLower_semi_iff c).mp h)
    show Char.toLower (if c = ';' then '\n' else c) =
      (if Char.toLower c = ';' then '\n' else Char.toLower c)
    rw [if_neg hc, if_neg h2]

theorem map_intercalate_single (f : Char → Char) (c : Char) (hf : f c = c) :
    ∀ ls : List (List Char), List.map f (List.intercalate [c] ls) =
      List.intercalate [c] (ls.map (List.map f)) := by
  intro ls
  induction ls with
  | nil => simp [List.intercalate]
  | cons a t ih =>
    cases t with
    | nil => simp [intercalate_singletonList]
    | cons b t' =>
      rw [show List.map (List.map f) (a :: b :: t') =
          List.map f a :: List.map (List.map f) (b :: t') from rfl,
        intercalate_cons_of_ne [c] (List.map f a) (List.map (List.map f) (b :: t')) (by simp),
        intercalate_cons_of_ne [c] a (b :: t') (by simp),
        List.map_append, List.map_append, ih,
        show List.map f [c] = [c] from by simp [hf]]

/-! ### Chain segments contain no chain operators -/

theorem singleton_infix_mem (c : Char) (l : List Char) : ([c] <:+: l) ↔ c ∈ l := by
  constructor
  · intro h
    exact h.subset (List.mem_singleton_self c)
  · intro h
    obtain ⟨s, t, rfl⟩ := List.append_of_mem h
    exact ⟨s, t, by simp⟩

theorem trimL_infix_self (l : List Char) : trimL l <:+: l := by
  have h1 : trimL l <:+ dropTrailing isSpace l := List.dropWhile_suffix isSpace
  have h2 : dropTrailing isSpace l <+: l := by
    have h3 : List.dropWhile isSpace l.reverse <:+ l.reverse := List.dropWhile_suffix isSpace
    have h4 := List.reverse_prefix.mpr h3
    rw [List.reverse_reverse] at h4
    exact h4
  obtain ⟨u, hu⟩ := h1
  obtain ⟨v, hv⟩ := h2
  exact ⟨u, v, by rw [hu, hv]⟩

theorem chainSegments_infix (t seg : List Char) (h : seg ∈ chainSegments t) :
    seg <:+: semiToNewline (replaceAmpAmp t) := by
  have hid := List.intercalate_splitOn (semiToNewline (replaceAmpAmp t)) '\n'
  have h2 := mem_infix_intercalate ['\n'] seg
    (List.splitOn '\n' (semiToNewline (replaceAmpAmp t))) h
  rw [hid] at h2
  exact h2

theorem chainSegments_pure (t seg : List Char) (h : seg ∈ chainSegments t) :
    ¬ ((['&', '&'] : List Char) <:+: seg) ∧ ';' ∉ seg := by
  have hinf := chainSegments_infix t seg h
  constructor
  · intro hc
    exact no_ampamp_semiToNewline (replaceAmpAmp t) (no_ampamp_replaceAmpAmp t) (hc.trans hinf)
  · intro hc
    exact semi_not_mem_semiToNewline (replaceAmpAmp t) (hinf.subset hc)

theorem chainSegments_pure_trim (t seg : List Char) (hm : seg ∈ chainSegments t) :
    ¬ ((['&', '&'] : List Char) <:+: trimL (trimL seg) ∨
      ([';'] : List Char) <:+: trimL (trimL seg)) := by
  obtain ⟨hno2, hnos⟩ := chainSegments_pure t seg hm
  rw [trimL_idem]
  intro hcon
  rcases hcon with h | h
  · exact hno2 (h.trans (trimL_infix_self seg))
  · exact hnos ((singleton_infix_mem ';' _).mp (h.trans (trimL_infix_self seg)))

/-! ### Fuel stability of the validator -/

theorem validateStep_dangerous (h : List Char → Except VErr Unit) (x p : List Char)
    (ht : trimL x ≠ [])
    (hd : List.find? (fun q => decide (lowerL q <:+: lowerL (trimL x)))
        DangerousPatterns = some p) :
    validateStep h x = .error (.dangerousPattern p) := by
  simp only [validateStep]
  rw [if_neg ht]
  split
  · rename_i q hfind
    rw [hd] at hfind
    injection hfind with hq
    rw [← hq]
  · rename_i hfind
    rw [hd] at hfind
    cases hfind

theorem validateStep_empty (h : List Char → Except VErr Unit) (x : List Char)
    (ht : trimL x = []) : validateStep h x = .error .emptyCommand := by
  simp only [validateStep]
  rw [if_pos ht]

theorem validateStep_eq_rest (h : List Char → Except VErr Unit) (x : List Char)
    (ht : trimL x ≠ [])
    (hd : List.find? (fun p => decide (lowerL p <:+: lowerL (trimL x)))
        DangerousPatterns = none)
    (hp : ¬ ((['|'] : List Char) <:+: trimL x))
    (hc : ¬ ((['&', '&'] : List Char) <:+: trimL x ∨ ([';'] : List Char) <:+: trimL x)) :
    validateStep h x = validateRest (trimL x) := by
  simp only [validateStep]
  rw [if_neg ht]
  split
  · rename_i p hfind2
    rw [hd] at hfind2
    cases hfind2
  · split
    · rename_i hfld
      unfold validateRest
      rw [hfld]
    · rename_i w ws hfld
      rw [if_neg hp, if_neg hc]
      unfold validateRest
      rw [hfld]

theorem validateStep_congr (h1 h2 : List Char → Except VErr Unit) (x : List Char)
    (hc : ¬ ((['&', '&'] : List Char) <:+: trimL x ∨ ([';'] : List Char) <:+: trimL x)) :
    validateStep h1 x = validateStep h2 x := by
  by_cases ht : trimL x = []
  · rw [validateStep_empty h1 x ht, validateStep_empty h2 x ht]
  · cases hfind : List.find? (fun p => decide (lowerL p <:+: lowerL (trimL x)))
        DangerousPatterns with
    | some p =>
      rw [validateStep_dangerous h1 x p ht hfind, validateStep_dangerous h2 x p ht hfind]
    | none =>
      by_cases hp : (['|'] : List Char) <:+: trimL x
      · rw [validateStep_eq_pipe h1 x ht hfind hp, validateStep_eq_pipe h2 x ht hfind hp]
      · rw [validateStep_eq_rest h1 x ht hfind hp hc,
          validateStep_eq_rest h2 x ht hfind hp hc]

theorem validateCore_congr_fuel (f g : Nat) (x : List Char)
    (hc : ¬ ((['&', '&'] : List Char) <:+: trimL x ∨ ([';'] : List Char) <:+: trimL x)) :
    validateCore f x = validateCore g x := by
  have key : ∀ n, validateCore n x = validateCore 0 x := by
    intro n
    cases n with
    | zero => rfl
    | succ m => exact validateStep_congr _ _ x hc
  rw [key f, key g]

theorem validateStep_trim (h : List Char → Except VErr Unit) (x : List Char) :
    validateStep h (trimL x) = validateStep h x := by
  simp only [validateStep, trimL_idem]

theorem validateCore_trim (f : Nat) (x : List Char) :
    validateCore f (trimL x) = validateCore f x := by
  cases f with
  | zero => exact validateStep_trim _ x
  | succ m => exact validateStep_trim _ x

/-! ### The chain branch of the validator -/

theorem chainLoop_ok_iff (v : List Char → Except VErr Unit) :
    ∀ segs : List (List Char), chainLoop v segs = .ok () ↔
      ∀ seg ∈ segs, trimL seg ≠ [] → v (trimL seg) = .ok () := by
  intro segs
  induction segs with
  | nil => simp [chainLoop]
  | cons seg rest ih =>
    simp only [chainLoop]
    by_cases hs : trimL seg = []
    · rw [if_pos hs]
      constructor
      · intro h s hm hne
        rcases List.mem_cons.mp hm with rfl | hm2
        · exact absurd hs hne
        · exact (ih.mp h) s hm2 hne
      · intro h
        exact ih.mpr (fun s hm hne => h s (List.mem_cons_of_mem _ hm) hne)
    · rw [if_neg hs]
      cases hv : v (trimL seg) with
      | error e =>
        constructor
        · intro h
          cases h
        · intro h
          have h2 := h seg (List.mem_cons_self _ _) hs
          rw [hv] at h2
          cases h2
      | ok u =>
        constructor
        · intro h s hm hne
          rcases List.mem_cons.mp hm with rfl | hm2
          · rw [hv]
          · exact (ih.mp h) s hm2 hne
        · intro h
          exact ih.mpr (fun s hm hne => h s (List.mem_cons_of_mem _ hm) hne)

theorem validateStep_eq_chain (h : List Char → Except VErr Unit) (x : List Char)
    (ht : trimL x ≠ [])
    (hd : List.find? (fun p => decide (lowerL p <:+: lowerL (trimL x)))
        DangerousPatterns = none)
    (hp : ¬ ((['|'] : List Char) <:+: trimL x))
    (hc : (['&', '&'] : List Char) <:+: trimL x ∨ ([';'] : List Char) <:+: trimL x) :
    validateStep h x = h (trimL x) := by
  simp only [validateStep]
  rw [if_neg ht]
  split
  · rename_i p hfind
    rw [hd] at hfind
    cases hfind
  · split
    · rename_i hnil
      exact absurd hnil (fieldsL_trimL_ne x ht)
    · rw [if_neg hp, if_pos hc]

theorem chainLoop_congr (v w : List Char → Except VErr Unit) :
    ∀ segs : List (List Char),
      (∀ seg ∈ segs, trimL seg ≠ [] → v (trimL seg) = w (trimL seg)) →
      chainLoop v segs = chainLoop w segs := by
  intro segs
  induction segs with
  | nil =>
    intro h
    rfl
  | cons seg rest ih =>
    intro h
    simp only [chainLoop]
    by_cases hs : trimL seg = []
    · rw [if_pos hs, if_pos hs]
      exact ih (fun s hm hne => h s (List.mem_cons_of_mem _ hm) hne)
    · rw [if_neg hs, if_neg hs, h seg (List.mem_cons_self _ _) hs]
      cases hw : w (trimL seg) with
      | error e => rfl
      | ok u => exact ih (fun s hm hne => h s (List.mem_cons_of_mem _ hm) hne)

/-- Fuel 2 suffices for validateCore: chain segments never contain "&&" or ";"
again, so the recursion stops after one nested level and all fuels from 2 on
agree.  This justifies defining ValidateCommand as validateCore 2. -/
theorem validateCore_fuel_stable (f : Nat) (x : List Char) :
    validateCore (f + 2) x = validateCore 2 x := by
  have hdef1 : validateCore (f + 2) x = validateStep
      (fun t2 => validateChainedCommands (fun c => validateCore (f + 1) c) t2) x := rfl
  have hdef2 : validateCore 2 x = validateStep
      (fun t2 => validateChainedCommands (fun c => validateCore 1 c) t2) x := rfl
  rw [hdef1, hdef2]
  by_cases ht : trimL x = []
  · rw [validateStep_empty _ x ht, validateStep_empty _ x ht]
  · cases hfind : List.find? (fun p => decide (lowerL p <:+: lowerL (trimL x)))
        DangerousPatterns with
    | some p =>
      rw [validateStep_dangerous _ x p ht hfind, validateStep_dangerous _ x p ht hfind]
    | none =>
      by_cases hp : (['|'] : List Char) <:+: trimL x
      · rw [validateStep_eq_pipe _ x ht hfind hp, validateStep_eq_pipe _ x ht hfind hp]
      · by_cases hc : (['&', '&'] : List Char) <:+: trimL x ∨
            ([';'] : List Char) <:+: trimL x
        · rw [validateStep_eq_chain _ x ht hfind hp hc,
            validateStep_eq_chain _ x ht hfind hp hc]
          unfold validateChainedCommands
          apply chainLoop_congr
          intro seg hm hne
          exact validateCore_congr_fuel (f + 1) 1 (trimL seg)
            (chainSegments_pure_trim (trimL x) seg hm)
        · rw [validateStep_eq_rest _ x ht hfind hp hc,
            validateStep_eq_rest _ x ht hfind hp hc]

theorem dangerous_sep_free :
    ∀ p ∈ DangerousPatterns, ('|' ∈ lowerL p) ∨
      ('&' ∉ lowerL p ∧ ';' ∉ lowerL p ∧ '\n' ∉ lowerL p) := by
  decide

theorem mem_of_mem_lowerL (d : Char) (hd : d.toNat < 97 ∨ 122 < d.toNat) (t : List Char)
    (h : d ∈ lowerL t) : d ∈ t := by
  rw [lowerL, List.mem_map] at h
  obtain ⟨c, hc, hcd⟩ := h
  have hcd2 := toLower_eq_fixed d c hd hcd
  rw [← hcd2]
  exact hc

theorem dangerous_edges2 (p : List Char) (hp : p ∈ DangerousPatterns) :
    lowerL p ≠ [] ∧ (∀ c, (lowerL p).head? = some c → isSpace c = false) ∧
      (∀ c, (lowerL p).getLast? = some c → isSpace c = false) := by
  obtain ⟨hne, hh, hl⟩ := dangerous_edges p hp
  refine ⟨hne, ?_, ?_⟩
  · intro c hc
    rw [List.headD_eq_head?, hc] at hh
    exact hh
  · intro c hc
    rw [List.getLastD_eq_getLast?, hc] at hl
    exact hl

/-! ### Membership and substring transport back through the decomposition -/

theorem mem_replaceAmpAmp : ∀ (t : List Char) (c : Char),
    c ∈ replaceAmpAmp t → c ∈ t ∨ c = '\n' := by
  intro t
  induction t using replaceAmpAmp.induct with
  | case1 =>
    intro c h
    cases h
  | case2 x =>
    intro c h
    exact Or.inl h
  | case3 x y rest hxy ih =>
    obtain ⟨rfl, rfl⟩ := hxy
    intro c h
    rw [show replaceAmpAmp ('&' :: '&' :: rest) = '\n' :: replaceAmpAmp rest from by
      simp [replaceAmpAmp]] at h
    rcases List.mem_cons.mp h with rfl | h2
    · exact Or.inr rfl
    · rcases ih c h2 with h3 | h3
      · exact Or.inl (List.mem_cons_of_mem _ (List.mem_cons_of_mem _ h3))
      · exact Or.inr h3
  | case4 x y rest hxy ih =>
    intro c h
    rw [show replaceAmpAmp (x :: y :: rest) = x :: replaceAmpAmp (y :: rest) from by
      simp only [replaceAmpAmp]; rw [if_neg hxy]] at h
    rcases List.mem_cons.mp h with rfl | h2
    · exact Or.inl (List.mem_cons_self _ _)
    · rcases ih c h2 with h3 | h3
      · exact Or.inl (List.mem_cons_of_mem _ h3)
      · exact Or.inr h3

theorem mem_semiToNewline (X : List Char) (c : Char) (h : c ∈ semiToNewline X) :
    c ∈ X ∨ c = '\n' := by
  rw [semiToNewline, List.mem_map] at h
  obtain ⟨d, hd, hdc⟩ := h
  by_cases hds : d = ';'
  · rw [if_pos hds] at hdc
    exact Or.inr hdc.symm
  · rw [if_neg hds] at hdc
    rw [← hdc]
    exact Or.inl hd

theorem semiToNewline_eq_self (m : List Char) (h : '\n' ∉ semiToNewline m) :
    semiToNewline m = m := by
  induction m with
  | nil => rfl
  | cons c m2 ih =>
    have hstep : semiToNewline (c :: m2) =
        (if c = ';' then '\n' else c) :: semiToNewline m2 := rfl
    rw [hstep] at h ⊢
    by_cases hc : c = ';'
    · exfalso
      apply h
      rw [if_pos hc]
      exact List.mem_cons_self _ _
    · rw [if_neg hc] at h ⊢
      rw [ih (fun hm => h (List.mem_cons_of_mem _ hm))]

theorem infix_semiToNewline_inv (sub X : List Char) (hn : '\n' ∉ sub)
    (h : sub <:+: semiToNewline X) : sub <:+: X := by
  obtain ⟨a, b, hab⟩ := h
  rw [List.append_assoc] at hab
  have hab2 : List.map (fun c => if c = ';' then '\n' else c) X = a ++ (sub ++ b) := hab.symm
  rcases List.map_eq_append_iff.mp hab2 with ⟨l₁, l₂, rfl, hm1, hm2⟩
  rcases List.map_eq_append_iff.mp hm2 with ⟨m, l₃, rfl, hm3, hm4⟩
  have hms : semiToNewline m = sub := hm3
  have hmm : m = sub := by
    rw [← hms]
    exact (semiToNewline_eq_self m (by rw [hms]; exact hn)).symm
  exact ⟨l₁, l₃, by rw [hmm, List.append_assoc]⟩

theorem prefix_replaceAmpAmp_inv : ∀ (m p : List Char), '\n' ∉ p →
    p <+: replaceAmpAmp m → p <+: m := by
  intro m
  induction m using replaceAmpAmp.induct with
  | case1 =>
    intro p hn hp
    exact hp
  | case2 x =>
    intro p hn hp
    exact hp
  | case3 x y rest hxy ih =>
    obtain ⟨rfl, rfl⟩ := hxy
    intro p hn hp
    rw [show replaceAmpAmp ('&' :: '&' :: rest) = '\n' :: replaceAmpAmp rest from by
      simp [replaceAmpAmp]] at hp
    rcases List.prefix_cons_iff.mp hp with h0 | ⟨t, rfl, _⟩
    · rw [h0]
      exact List.nil_prefix
    · exact absurd (List.mem_cons_self _ _) hn
  | case4 x y rest hxy ih =>
    intro p hn hp
    rw [show replaceAmpAmp (x :: y :: rest) = x :: replaceAmpAmp (y :: rest) from by
      simp only [replaceAmpAmp]; rw [if_neg hxy]] at hp
    rcases List.prefix_cons_iff.mp hp with h0 | ⟨t, rfl, hpt⟩
    · rw [h0]
      exact List.nil_prefix
    · exact List.cons_prefix_cons.mpr
        ⟨rfl, ih t (fun hm => hn (List.mem_cons_of_mem _ hm)) hpt⟩

theorem infix_replaceAmpAmp_inv : ∀ (m sub : List Char), '\n' ∉ sub →
    sub <:+: replaceAmpAmp m → sub <:+: m := by
  intro m
  induction m using replaceAmpAmp.induct with
  | case1 =>
    intro sub hn h
    exact h
  | case2 x =>
    intro sub hn h
    exact h
  | case3 x y rest hxy ih =>
    obtain ⟨rfl, rfl⟩ := hxy
    intro sub hn h
    rw [show replaceAmpAmp ('&' :: '&' :: rest) = '\n' :: replaceAmpAmp rest from by
      simp [replaceAmpAmp]] at h
    rcases List.infix_cons_iff.mp h with hpre | hinf
    · rcases List.prefix_cons_iff.mp hpre with h0 | ⟨t, rfl, _⟩
      · rw [h0]
        exact List.nil_infix
      · exact absurd (List.mem_cons_self _ _) hn
    · exact List.infix_cons (List.infix_cons (ih sub hn hinf))
  | case4 x y rest hxy ih =>
    intro sub hn h
    rw [show replaceAmpAmp (x :: y :: rest) = x :: replaceAmpAmp (y :: rest) from by
      simp only [replaceAmpAmp]; rw [if_neg hxy]] at h
    rcases List.infix_cons_iff.mp h with hpre | hinf
    · rcases List.prefix_cons_iff.mp hpre with h0 | ⟨t, rfl, hpt⟩
      · rw [h0]
        exact List.nil_infix
      · have ht := prefix_replaceAmpAmp_inv (y :: rest) t
          (fun hm => hn (List.mem_cons_of_mem _ hm)) hpt
        exact List.IsPrefix.isInfix (List.cons_prefix_cons.mpr ⟨rfl, ht⟩)
    · exact List.infix_cons (ih sub hn hinf)

theorem segment_no_pipe (t seg : List Char) (hnp : '|' ∉ t) (hm : seg ∈ chainSegments t) :
    '|' ∉ trimL seg := by
  intro hmem
  have h1 : '|' ∈ seg := (trimL_infix_self seg).subset hmem
  have h2 : '|' ∈ semiToNewline (replaceAmpAmp t) := ( chainSegments_infix t seg hm).subset h1
  rcases mem_semiToNewline _ _ h2 with h3 | h3
  · rcases mem_replaceAmpAmp t '|' h3 with h4 | h4
    · exact hnp h4
    · exact absurd h4 (by decide)
  · exact absurd h3 (by decide)

theorem pattern_sep_free_of_seg (t seg x : List Char) (hnp : '|' ∉ t)
    (hm : seg ∈ chainSegments t) (hx : x ∈ DangerousPatterns)
    (hmatch : lowerL x <:+: lowerL (trimL seg)) :
    '&' ∉ lowerL x ∧ ';' ∉ lowerL x ∧ '\n' ∉ lowerL x := by
  rcases dangerous_sep_free x hx with hbar | hfree
  · exfalso
    have h1 : '|' ∈ lowerL (trimL seg) := hmatch.subset hbar
    have h2 : '|' ∈ trimL seg := mem_of_mem_lowerL '|' (by decide) _ h1
    exact segment_no_pipe t seg hnp hm h2
  · exact hfree

/-- A deny pattern matching a chain segment (case-folded) also matches the
whole command, provided the command has no pipe character: patterns free of
the separator characters survive back through the newline replacements. -/
theorem pattern_whole_of_seg (t seg x : List Char) (hnp : '|' ∉ t)
    (hm : seg ∈ chainSegments t) (hx : x ∈ DangerousPatterns)
    (hmatch : lowerL x <:+: lowerL (trimL seg)) :
    lowerL x <:+: lowerL t := by
  obtain ⟨hamp, hsemi, hnl⟩ := pattern_sep_free_of_seg t seg x hnp hm hx hmatch
  have c1 : lowerL x <:+: lowerL seg := by
    have h2 := hmatch
    rw [lowerL_trimL] at h2
    exact h2.trans (trimL_infix_self (lowerL seg))
  have c2 : lowerL x <:+: lowerL (semiToNewline (replaceAmpAmp t)) :=
    c1.trans (List.IsInfix.map Char.toLower ( chainSegments_infix t seg hm))
  rw [lowerL_semiToNewline, lowerL_replaceAmpAmp] at c2
  have c3 : lowerL x <:+: replaceAmpAmp (lowerL t) :=
    infix_semiToNewline_inv _ _ hnl c2
  exact infix_replaceAmpAmp_inv (lowerL t) (lowerL x) hnl c3

/-- A deny pattern matching the whole pipe-free command (case-folded) matches
some non-blank chain segment. -/
theorem match_some_segment (t0 p : List Char) (hp : p ∈ DangerousPatterns)
    (hnp : '|' ∉ t0) (hmatch : lowerL p <:+: lowerL t0) :
    ∃ seg ∈ chainSegments t0, trimL seg ≠ [] ∧ lowerL p <:+: lowerL (trimL seg) := by
  obtain ⟨hne, hh, hl⟩ := dangerous_edges2 p hp
  have hppipe : '|' ∉ lowerL p := by
    intro hmem
    exact hnp (mem_of_mem_lowerL '|' (by decide) _ (hmatch.subset hmem))
  rcases dangerous_sep_free p hp with hbar | ⟨hamp, hsemi, hnl⟩
  · exact absurd hbar hppipe
  have s1 : lowerL p <:+: replaceAmpAmp (lowerL t0) :=
    infix_replaceAmpAmp _ _ hne hamp hmatch
  rw [← lowerL_replaceAmpAmp] at s1
  have s2 : lowerL p <:+: semiToNewline (lowerL (replaceAmpAmp t0)) :=
    infix_semiToNewline _ _ hsemi s1
  rw [← lowerL_semiToNewline] at s2
  have hid : semiToNewline (replaceAmpAmp t0) =
      List.intercalate ['\n'] (chainSegments t0) := by
    rw [chainSegments]
    exact (List.intercalate_splitOn _ '\n').symm
  rw [hid] at s2
  rw [show lowerL (List.intercalate ['\n'] (chainSegments t0)) =
    List.intercalate ['\n'] ((chainSegments t0).map lowerL) from
    map_intercalate_single Char.toLower '\n' (by decide) _] at s2
  obtain ⟨x, hx, hix⟩ := infix_intercalate_split '\n' _ (lowerL p) hne hnl s2
  rw [List.mem_map] at hx
  obtain ⟨seg, hsegmem, hxeq⟩ := hx
  rw [← hxeq] at hix
  have s4 : lowerL p <:+: trimL (lowerL seg) := infix_trimL _ _ hne hh hl hix
  rw [← lowerL_trimL] at s4
  exact ⟨seg, hsegmem, trimL_ne_nil_of_infix (lowerL p) seg hne s4, s4⟩

theorem chainLoop_error (v : List Char → Except VErr Unit) :
    ∀ (segs : List (List Char)) (e : VErr), chainLoop v segs = .error e →
      ∃ seg ∈ segs, trimL seg ≠ [] ∧ v (trimL seg) = .error e := by
  intro segs
  induction segs with
  | nil =>
    intro e h
    cases h
  | cons seg rest ih =>
    intro e h
    simp only [chainLoop] at h
    by_cases hs : trimL seg = []
    · rw [if_pos hs] at h
      obtain ⟨s2, hm, hne, hv⟩ := ih e h
      exact ⟨s2, List.mem_cons_of_mem _ hm, hne, hv⟩
    · rw [if_neg hs] at h
      cases hv : v (trimL seg) with
      | error e2 =>
        rw [hv] at h
        injection h with he
        exact ⟨seg, List.mem_cons_self _ _, hs, by rw [hv, he]⟩
      | ok u =>
        rw [hv] at h
        obtain ⟨s2, hm, hne, hv2⟩ := ih e h
        exact ⟨s2, List.mem_cons_of_mem _ hm, hne, hv2⟩

/-- Claim C2, amended: for a multi-segment command joined by "&&" or ";" that
contains no pipe character, ValidateCommand allows the whole command exactly
when every chain segment that is non-blank after trimming is independently
allowed by ValidateCommand; and when the whole command is rejected, the
returned reason is the reason of a failing non-blank segment — a single
disallowed segment rejects the whole command with that segment's reason.
(The pipe restriction is forced by the counterexample
claim_C2_counterexample: the pipe branch takes precedence over the chain
branch.) -/
theorem claim_C2_amended (s : String)
    (hchain : (['&', '&'] : List Char) <:+: trimL s.toList ∨
      ([';'] : List Char) <:+: trimL s.toList)
    (hnopipe : '|' ∉ trimL s.toList) :
    (ValidateCommand s = .ok () ↔
      ∀ seg ∈ chainSegments (trimL s.toList), trimL seg ≠ [] →
        ValidateCommand seg.asString = .ok ()) ∧
    (∀ e : VErr, ValidateCommand s = .error e →
      ∃ seg ∈ chainSegments (trimL s.toList), trimL seg ≠ [] ∧
        ValidateCommand seg.asString = .error e) := by
  have ht : trimL s.toList ≠ [] := by
    intro h0
    rcases hchain with h | h <;> (rw [h0, List.infix_nil] at h; cases h)
  have hpipeinf : ¬ ((['|'] : List Char) <:+: trimL s.toList) :=
    fun hc => hnopipe ((singleton_infix_mem '|' _).mp hc)
  have hVC : ∀ seg : List Char, ValidateCommand seg.asString = validateCore 2 seg :=
    fun seg => rfl
  have hseg_eq : ∀ seg ∈ chainSegments (trimL s.toList),
      validateCore 1 (trimL seg) = validateCore 2 seg := by
    intro seg hm
    have e1 : validateCore 1 (trimL seg) = validateCore 2 (trimL seg) :=
      validateCore_congr_fuel 1 2 (trimL seg) (chainSegments_pure_trim (trimL s.toList) seg hm)
    rw [e1, validateCore_trim 2 seg]
  have hdef : ValidateCommand s = validateStep
      (fun t2 => validateChainedCommands (fun c => validateCore 1 c) t2) s.toList := rfl
  cases hfind : List.find? (fun p => decide (lowerL p <:+: lowerL (trimL s.toList)))
      DangerousPatterns with
  | some p =>
    have hLHS : ValidateCommand s = .error (.dangerousPattern p) := by
      rw [hdef]
      exact validateStep_dangerous _ s.toList p ht hfind
    have hpmem := List.mem_of_find?_eq_some hfind
    have hpmatch : lowerL p <:+: lowerL (trimL s.toList) := by
      simpa using List.find?_some hfind
    obtain ⟨seg, hsegmem, hsegne, hsegmatch⟩ :=
      match_some_segment (trimL s.toList) p hpmem hnopipe hpmatch
    rcases List.find?_eq_some.mp hfind with ⟨hpq, as2, bs2, hdecomp, hfail⟩
    have hsegfind : List.find? (fun q => decide (lowerL q <:+: lowerL (trimL (trimL seg))))
        DangerousPatterns = some p := by
      apply List.find?_eq_some.mpr
      refine ⟨?_, as2, bs2, hdecomp, ?_⟩
      · show decide (lowerL p <:+: lowerL (trimL (trimL seg))) = true
        rw [trimL_idem]
        simpa using hsegmatch
      · intro x hxas
        show (! decide (lowerL x <:+: lowerL (trimL (trimL seg)))) = true
        rw [trimL_idem]
        simp only [Bool.not_eq_true', decide_eq_false_iff_not]
        intro hxmatch
        have hxmem : x ∈ DangerousPatterns := by
          rw [hdecomp]
          exact List.mem_append_left _ hxas
        have hwhole := pattern_whole_of_seg (trimL s.toList) seg x hnopipe hsegmem
          hxmem hxmatch
        have hxfail := hfail x hxas
        simp only [Bool.not_eq_true', decide_eq_false_iff_not] at hxfail
        exact hxfail hwhole
    have htseg : trimL (trimL seg) ≠ [] := by
      rw [trimL_idem]
      exact hsegne
    have herr : ValidateCommand seg.asString = .error (.dangerousPattern p) := by
      rw [hVC seg, ← validateCore_trim 2 seg]
      exact validateStep_dangerous
        (fun t2 => validateChainedCommands (fun c => validateCore 1 c) t2)
        (trimL seg) p htseg hsegfind
    refine ⟨?_, ?_⟩
    · constructor
      · intro h
        rw [hLHS] at h
        cases h
      · intro h
        have hok := h seg hsegmem hsegne
        rw [herr] at hok
        cases hok
    · intro e he
      rw [hLHS] at he
      injection he with he2
      exact ⟨seg, hsegmem, hsegne, by rw [herr, he2]⟩
  | none =>
    have hstep : ValidateCommand s =
        validateChainedCommands (fun c => validateCore 1 c) (trimL s.toList) := by
      rw [hdef]
      exact validateStep_eq_chain _ s.toList ht hfind hpipeinf hchain
    refine ⟨?_, ?_⟩
    · rw [hstep, validateChainedCommands, chainLoop_ok_iff]
      constructor
      · intro h seg hm hne
        rw [hVC seg, ← hseg_eq seg hm]
        exact h seg hm hne
      · intro h seg hm hne
        rw [hseg_eq seg hm, ← hVC seg]
        exact h seg hm hne
    · intro e he
      rw [hstep, validateChainedCommands] at he
      obtain ⟨seg, hm, hne, hv⟩ := chainLoop_error _ _ e he
      refine ⟨seg, hm, hne, ?_⟩
      rw [hVC seg, ← hseg_eq seg hm]
      exact hv

theorem claim_C2_witness :
    ((['&', '&'] : List Char) <:+: trimL ("ls && pwd").toList ∨
      ([';'] : List Char) <:+: trimL ("ls && pwd").toList) ∧
    '|' ∉ trimL ("ls && pwd").toList ∧
    ((ValidateCommand ("ls && pwd") = .ok () ↔
        ∀ seg ∈ chainSegments (trimL ("ls && pwd").toList), trimL seg ≠ [] →
          ValidateCommand seg.asString = .ok ()) ∧
      (∀ e : VErr, ValidateCommand ("ls && pwd") = .error e →
        ∃ seg ∈ chainSegments (trimL ("ls && pwd").toList), trimL seg ≠ [] ∧
          ValidateCommand seg.asString = .error e)) := by
  refine ⟨by decide, by decide, ?_⟩
  exact claim_C2_amended ("ls && pwd") (by decide) (by decide)

/-! ### Lemmas about the agent control loop -/

theorem loopAux_calls_le (client : ModelClient) (executor : ToolExecutorFn) :
    ∀ (f : Nat) (messages : List MessageParam),
      (loopAux client executor f messages).2.1 ≤ f := by
  intro f
  induction f with
  | zero => intro messages; simp [loopAux]
  | succ f ih =>
    intro messages
    simp only [loopAux]
    cases client messages with
    | error e => simp
    | ok r =>
      by_cases h : HasToolUse r = true
      · simp only [h, if_true]
        have := ih (messages ++ [⟨"assistant", buildAssistantContent r.content⟩,
          BuildToolResultsMessage (executeTools executor (ExtractToolUses r))])
        simpa using Nat.add_le_add_right this 1
      · simp only [Bool.not_eq_true] at h
        simp [h]

theorem loopAux_all_tool (client : ModelClient) (executor : ToolExecutorFn)
    (h : ∀ m, ∃ r, client m = .ok r ∧ HasToolUse r = true) :
    ∀ (f : Nat) (messages : List MessageParam),
      (loopAux client executor f messages).1 = .error maxIterationsMsg ∧
        (loopAux client executor f messages).2.1 = f := by
  intro f
  induction f with
  | zero => intro messages; exact ⟨rfl, rfl⟩
  | succ f ih =>
    intro messages
    obtain ⟨r, hc, ht⟩ := h messages
    simp only [loopAux, hc, ht, if_true]
    have := ih (messages ++ [⟨"assistant", buildAssistantContent r.content⟩,
      BuildToolResultsMessage (executeTools executor (ExtractToolUses r))])
    exact ⟨this.1, by simp [this.2]⟩

/-- Claim C5: the loop makes at most 20 model calls; a model that always
requests a tool drives it to exactly 20 calls and the fatal
iteration-ceiling error; a first plain-text response terminates it after
exactly one model call with zero tool executions, returning that text. -/
theorem claim_C5 :
    (∀ (client : ModelClient) (executor : ToolExecutorFn) (messages : List MessageParam),
        (processWithToolLoop client executor messages).2.1 ≤ 20) ∧
    (∀ (client : ModelClient) (executor : ToolExecutorFn) (messages : List MessageParam),
        (∀ m, ∃ r, client m = .ok r ∧ HasToolUse r = true) →
        (processWithToolLoop client executor messages).1 =
            .error ("exceeded maximum tool use iterations (20)") ∧
          (processWithToolLoop client executor messages).2.1 = 20) ∧
    (∀ (client : ModelClient) (executor : ToolExecutorFn) (messages : List MessageParam)
        (r : ModelMessage),
        client messages = .ok r → HasToolUse r = false →
        processWithToolLoop client executor messages = (.ok (ExtractTextContent r), 1, 0)) := by
  refine ⟨?_, ?_, ?_⟩
  · intro client executor messages
    exact loopAux_calls_le client executor maxIterations messages
  · intro client executor messages h
    exact loopAux_all_tool client executor h maxIterations messages
  · intro client executor messages r hc ht
    simp [processWithToolLoop, maxIterations, loopAux, hc, ht]

theorem claim_C5_witness :
    ((processWithToolLoop clientAlwaysTool executorOk []).1 =
        .error ("exceeded maximum tool use iterations (20)") ∧
      (processWithToolLoop clientAlwaysTool executorOk []).2.1 = 20) ∧
    processWithToolLoop clientPlainText executorOk [] = (.ok ("hello"), 1, 0) := by
  constructor
  · exact claim_C5.2.1 clientAlwaysTool executorOk []
      (fun m => ⟨{ content := [.toolUse ("t1") ("read_file") ("x")],
                   stopReason := "tool_use" }, rfl, rfl⟩)
  · exact claim_C5.2.2 clientPlainText executorOk []
      { content := [.text ("hello")], stopReason := "end_turn" } rfl rfl

/-- Claim C7: an unknown tool name surfaces as the error "unknown tool: name";
an executor error at position i becomes the error-flagged ToolResult with the
FormatError text at position i; and whenever the response signals tool use the
loop appends the assistant turn and the batched tool results and proceeds to
the next model call, for every executor — including ones that fail — so a tool
execution error never terminates processWithToolLoop. -/
theorem claim_C7 :
    (∀ (e : ToolExecutor) (name input : String), name ∉ knownToolNames →
        e.Execute name input = .error ("unknown tool: " ++ name)) ∧
    (∀ (executor : ToolExecutorFn) (tus : List ToolUseBlock) (i : Nat)
        (tu : ToolUseBlock) (er : String),
        tus[i]? = some tu → executor tu.name tu.input = .error er →
        (executeTools executor tus)[i]? = some ⟨tu.id, "Error: " ++ er, true⟩) ∧
    (∀ (client : ModelClient) (executor : ToolExecutorFn) (f : Nat)
        (messages : List MessageParam) (r : ModelMessage),
        client messages = .ok r → HasToolUse r = true →
        loopAux client executor (f + 1) messages =
          ((loopAux client executor f
              (messages ++ [⟨"assistant", buildAssistantContent r.content⟩,
                BuildToolResultsMessage (executeTools executor (ExtractToolUses r))])).1,
           (loopAux client executor f
              (messages ++ [⟨"assistant", buildAssistantContent r.content⟩,
                BuildToolResultsMessage (executeTools executor (ExtractToolUses r))])).2.1 + 1,
           (loopAux client executor f
              (messages ++ [⟨"assistant", buildAssistantContent r.content⟩,
                BuildToolResultsMessage (executeTools executor (ExtractToolUses r))])).2.2 +
             (ExtractToolUses r).length)) := by
  refine ⟨?_, ?_, ?_⟩
  · intro e name input h
    unfold ToolExecutor.Execute
    split <;> simp_all [knownToolNames]
  · intro executor tus i tu er h1 h2
    simp [executeTools, List.getElem?_map, h1, h2, FormatError]
  · intro client executor f messages r hc ht
    simp [loopAux, hc, ht]

theorem claim_C7_witness :
    (stubToolExecutor.Execute ("bogus_tool") ("") =
        .error ("unknown tool: bogus_tool")) ∧
    (executeTools executorFail [⟨"t1", "read_file", "x"⟩])[0]? =
        some ⟨"t1", "Error: boom", true⟩ ∧
    loopAux clientAlwaysTool executorFail 1 [] =
      ((loopAux clientAlwaysTool executorFail 0
          ([] ++ [⟨"assistant", buildAssistantContent [.toolUse ("t1") ("read_file") ("x")]⟩,
            BuildToolResultsMessage (executeTools executorFail
              (ExtractToolUses { content := [.toolUse ("t1") ("read_file") ("x")],
                                 stopReason := "tool_use" }))])).1,
       (loopAux clientAlwaysTool executorFail 0
          ([] ++ [⟨"assistant", buildAssistantContent [.toolUse ("t1") ("read_file") ("x")]⟩,
            BuildToolResultsMessage (executeTools executorFail
              (ExtractToolUses { content := [.toolUse ("t1") ("read_file") ("x")],
                                 stopReason := "tool_use" }))])).2.1 + 1,
       (loopAux clientAlwaysTool executorFail 0
          ([] ++ [⟨"assistant", buildAssistantContent [.toolUse ("t1") ("read_file") ("x")]⟩,
            BuildToolResultsMessage (executeTools executorFail
              (ExtractToolUses { content := [.toolUse ("t1") ("read_file") ("x")],
                                 stopReason := "tool_use" }))])).2.2 +
         (ExtractToolUses { content := [.toolUse ("t1") ("read_file") ("x")],
                            stopReason := "tool_use" }).length) := by
  refine ⟨?_, ?_, ?_⟩
  · exact claim_C7.1 stubToolExecutor ("bogus_tool") ("") (by decide)
  · exact claim_C7.2.1 executorFail [⟨"t1", "read_file", "x"⟩] 0 ⟨"t1", "read_file", "x"⟩
      ("boom") rfl rfl
  · exact claim_C7.2.2 clientAlwaysTool executorFail 0 []
      { content := [.toolUse ("t1") ("read_file") ("x")], stopReason := "tool_use" } rfl rfl

/-! ### Lemmas about the memory store -/

theorem addAll_of_get_some (id chan : String) :
    ∀ (msgs : List (Message × Nat)) (s : MemoryStore) (c : Conversation),
      s id = some c →
      ∃ c2, (s.addAll id chan msgs) id = some c2 ∧
        c2.messages = c.messages ++ msgs.map Prod.fst ∧
        c2.id = c.id ∧ c2.channelID = c.channelID := by
  intro msgs
  induction msgs with
  | nil => intro s c h; exact ⟨c, h, by simp, rfl, rfl⟩
  | cons m rest ih =>
    intro s c h
    have hstep : (s.AddMessage id chan m.1 m.2) id =
        some { c with messages := c.messages ++ [m.1], updatedAt := m.2 } := by
      simp [MemoryStore.AddMessage, h]
    obtain ⟨c2, h2, hm, hid, hch⟩ := ih (s.AddMessage id chan m.1 m.2) _ hstep
    refine ⟨c2, h2, ?_, hid, hch⟩
    simp [hm, List.append_assoc]

/-- Claim C8: appending any non-empty sequence of messages for a fresh
conversation id and then fetching it yields a conversation holding exactly
those messages, in order, unchanged. -/
theorem claim_C8 (s : MemoryStore) (id chan : String) (msgs : List (Message × Nat))
    (hfresh : s.Get id = none) (hne : msgs ≠ []) :
    ∃ conv, (s.addAll id chan msgs).Get id = some conv ∧
      conv.messages = msgs.map Prod.fst ∧ conv.id = id ∧ conv.channelID = chan := by
  match msgs, hne with
  | (m, t) :: rest, _ =>
    have hstep : (s.AddMessage id chan m t) id =
        some { id := id, channelID := chan, messages := [m],
               createdAt := t, updatedAt := t } := by
      simp only [MemoryStore.Get] at hfresh
      simp [MemoryStore.AddMessage, hfresh]
    obtain ⟨c2, h2, hm, hid, hch⟩ :=
      addAll_of_get_some id chan rest (s.AddMessage id chan m t) _ hstep
    exact ⟨c2, h2, by simpa using hm, hid, hch⟩

theorem claim_C8_witness :
    ∃ conv,
      ((MemoryStore.empty.addAll ("c") ("ch")
          [(⟨"user", "hi", 1⟩, 1), (⟨"assistant", "hello", 2⟩, 2)]).Get ("c") = some conv ∧
        conv.messages = [⟨"user", "hi", 1⟩, ⟨"assistant", "hello", 2⟩] ∧
        conv.id = "c" ∧ conv.channelID = "ch") := by
  exact claim_C8 MemoryStore.empty ("c") ("ch")
    [(⟨"user", "hi", 1⟩, 1), (⟨"assistant", "hello", 2⟩, 2)] rfl (by simp)

/-- Claim C10: if fetching the conversation succeeds and the tool loop
succeeds, ProcessMessage returns the response with no error, for every store —
including ones whose AddMessage always fails — so a store write failure is
never propagated, and the loop runs on the in-memory history built before the
store write. -/
theorem claim_C10 (σ : Type) (store : StoreOps σ) (client : ModelClient)
    (executor : ToolExecutorFn) (st : σ) (cid chid umsg : String)
    (conv : Option Conversation) (response : String)
    (hget : store.get st cid = .ok conv)
    (hloop : (processWithToolLoop client executor
        (buildMessageHistory conv ++ [BuildUserMessage umsg])).1 = .ok response) :
    (ProcessMessage store client executor st cid chid umsg).1 = .ok response := by
  simp [ProcessMessage, hget, hloop]

theorem claim_C10_witness :
    (ProcessMessage failingStore clientPlainText executorOk 0 ("c1") ("ch") ("hi")).1 =
        .ok ("hello") ∧
    (failingStore.addMessage 0 ("c1") ("ch")
        { role := "user", content := "hi", timestamp := 0 }).2 =
      some ("store write failed") := by
  constructor
  · exact claim_C10 Nat failingStore clientPlainText executorOk 0 ("c1") ("ch") ("hi")
      none ("hello") rfl rfl
  · rfl

/-! ### The output-limiting writer -/

/-- Claim C9 fails on the code: a Write call that crosses the byte ceiling
reports the truncated length, not len(p).  With limit 2 and an empty buffer,
writing 3 bytes stores the first 2 bytes and returns n = 2 while len(p) = 3 —
a short write, contradicting the source comment "Report full length to avoid
writer errors" (the source reassigns p to p[:remaining] before returning
len(p)). -/
theorem claim_C9_code_bug :
    limitedWriter.Write ⟨[], 2, 0⟩ [10, 20, 30] = (⟨[10, 20], 2, 2⟩, 2, none) ∧
    ([10, 20, 30] : List Nat).length = 3 ∧
    limitedWriter.Write ⟨[10, 20], 2, 2⟩ [40] = (⟨[10, 20], 2, 2⟩, 1, none) := by
  refine ⟨?_, rfl, ?_⟩ <;> rfl

end StormStack
